import Mathlib

/-!
Shallow embedding of `reflex/utils/exec.py`: the dev-mode process
supervisor (`run_process_and_launch_url`), the manifest fingerprinter
(`detect_package_change`), the process-tree termination helper (`kill`)
and the reload-path resolver (`get_reload_paths`), together with proofs
about them.
-/

set_option autoImplicit false

/-! ## JSON values

`json.load` produces Python values; we embed the JSON data model as an
inductive type.  Objects are association lists in source (insertion)
order, mirroring Python dicts, which preserve insertion order.  JSON
numbers are embedded as integers (the dependency manifests hashed by
`detect_package_change` use integers and strings; float formatting is
out of scope and orthogonal to every claim below). -/

inductive JsonValue where
  | null : JsonValue
  | bool (b : Bool) : JsonValue
  | num (n : Int) : JsonValue
  | str (s : String) : JsonValue
  | arr (xs : List JsonValue) : JsonValue
  | obj (kvs : List (String × JsonValue)) : JsonValue

/-- Keys of an association list, in order. -/
def keysOf (l : List (String × JsonValue)) : List String :=
  l.map Prod.fst

/-- First value bound to `k`, mirroring Python dict lookup (keys of a
parsed JSON object are unique, so "first" is "the"). -/
def findVal (k : String) : List (String × JsonValue) → Option JsonValue
  | [] => none
  | (k', v) :: t => if k' = k then some v else findVal k t

/-- Key order used by `json.dumps(..., sort_keys=True)`: `sorted` on the
keys, i.e. lexicographic string comparison. -/
def keyLe (p q : String × JsonValue) : Prop := p.1 ≤ q.1

instance : DecidableRel keyLe := fun p q => inferInstanceAs (Decidable (p.1 ≤ q.1))

/-- Sort an object's entries by key.  Python's `sorted` is a stable
sort; `List.insertionSort` is also stable, and on the duplicate-free
key lists produced by `json.load` every sort agrees anyway. -/
def sortPairs (l : List (String × JsonValue)) : List (String × JsonValue) :=
  l.insertionSort keyLe

/-- Strict key order (keys are unique, so sorted objects are strictly
sorted). -/
def keyLt (p q : String × JsonValue) : Prop := p.1 < q.1

instance : IsTotal (String × JsonValue) keyLe := ⟨fun a b => le_total a.1 b.1⟩

instance : IsTrans (String × JsonValue) keyLe := ⟨fun _ _ _ h1 h2 => le_trans h1 h2⟩

mutual
/-- Recursively sort every object's entries by key.  This is the
canonicalization that `json.dumps(v, sort_keys=True)` applies on the
fly while serializing `v`. -/
def normalizeJson : JsonValue → JsonValue
  | .null => .null
  | .bool b => .bool b
  | .num n => .num n
  | .str s => .str s
  | .arr xs => .arr (normJsonList xs)
  | .obj kvs => .obj (sortPairs (normJsonPairs kvs))

def normJsonList : List JsonValue → List JsonValue
  | [] => []
  | x :: xs => normalizeJson x :: normJsonList xs

def normJsonPairs : List (String × JsonValue) → List (String × JsonValue)
  | [] => []
  | (k, v) :: t => (k, normalizeJson v) :: normJsonPairs t
end

mutual
/-- Python `==` on parsed JSON values ("structural equality"): dict
comparison ignores key order — equal key sets with `==`-equal values. -/
def pyEq : JsonValue → JsonValue → Bool
  | .null, .null => true
  | .bool a, .bool b => a == b
  | .num a, .num b => a == b
  | .str a, .str b => a == b
  | .arr xs, .arr ys => pyEqList xs ys
  | .obj xs, .obj ys => xs.length == ys.length && pyEqPairs xs ys
  | _, _ => false

def pyEqList : List JsonValue → List JsonValue → Bool
  | [], [] => true
  | x :: xs, y :: ys => pyEq x y && pyEqList xs ys
  | _, _ => false

/-- Every entry of the first object occurs (same key, `==`-equal value)
in the second. -/
def pyEqPairs : List (String × JsonValue) → List (String × JsonValue) → Bool
  | [], _ => true
  | (k, v) :: t, ys => pyFind k v ys && pyEqPairs t ys

def pyFind : String → JsonValue → List (String × JsonValue) → Bool
  | _, _, [] => false
  | k, v, (k', w) :: t => (k == k' && pyEq v w) || pyFind k v t
end

mutual
/-- Well-formedness of a parsed JSON value: every object has
duplicate-free keys.  `json.load` guarantees this (later duplicate keys
overwrite earlier ones in the resulting dict). -/
def wfJson : JsonValue → Bool
  | .null => true
  | .bool _ => true
  | .num _ => true
  | .str _ => true
  | .arr xs => wfJsonList xs
  | .obj kvs => decide (keysOf kvs).Nodup && wfJsonPairs kvs

def wfJsonList : List JsonValue → Bool
  | [] => true
  | x :: xs => wfJson x && wfJsonList xs

def wfJsonPairs : List (String × JsonValue) → Bool
  | [] => true
  | (_, v) :: t => wfJson v && wfJsonPairs t
end

/-! ## JSON serialization (`json.dumps` with `sort_keys=True`)

Default `json.dumps` options: `ensure_ascii=True` (non-ASCII escaped as
`\uXXXX`, astral characters as surrogate pairs), separators `", "` and
`": "`. -/

/-- Lowercase hex digit. -/
def hexDigitChar (n : Nat) : Char :=
  if n = 0 then '0' else if n = 1 then '1' else if n = 2 then '2'
  else if n = 3 then '3' else if n = 4 then '4' else if n = 5 then '5'
  else if n = 6 then '6' else if n = 7 then '7' else if n = 8 then '8'
  else if n = 9 then '9' else if n = 10 then 'a' else if n = 11 then 'b'
  else if n = 12 then 'c' else if n = 13 then 'd' else if n = 14 then 'e'
  else 'f'

/-- `n` as exactly four lowercase hex digits (for `\uXXXX` escapes). -/
def hex4 (n : Nat) : String :=
  String.mk [hexDigitChar (n / 4096 % 16), hexDigitChar (n / 256 % 16),
    hexDigitChar (n / 16 % 16), hexDigitChar (n % 16)]

/-- JSON escaping of one character, as `json.dumps` with
`ensure_ascii=True` performs it. -/
def jsonEscapeChar (c : Char) : String :=
  if c = '"' then "\\\""
  else if c = '\\' then "\\\\"
  else if c = '\n' then "\\n"
  else if c = '\t' then "\\t"
  else if c = '\r' then "\\r"
  else if c.toNat = 8 then "\\b"
  else if c.toNat = 12 then "\\f"
  else if c.toNat < 32 ∨ c.toNat > 126 then
    if c.toNat < 65536 then "\\u" ++ hex4 c.toNat
    else
      let v := c.toNat - 65536
      "\\u" ++ hex4 (55296 + v / 1024) ++ "\\u" ++ hex4 (56320 + v % 1024)
  else String.singleton c

/-- A JSON string literal. -/
def jsonQuote (s : String) : String :=
  "\"" ++ String.join (s.data.map jsonEscapeChar) ++ "\""

mutual
/-- Plain recursive serialization (no sorting); `json.dumps` with
`sort_keys=True` equals `dumpsPlain` of the recursively key-sorted
value, see `json_dumps_sorted`. -/
def dumpsPlain : JsonValue → String
  | .null => "null"
  | .bool b => if b then "true" else "false"
  | .num n => toString n
  | .str s => jsonQuote s
  | .arr xs => "[" ++ dumpsPlainList xs ++ "]"
  | .obj kvs => "\x7b" ++ dumpsPlainPairs kvs ++ "\x7d"

def dumpsPlainList : List JsonValue → String
  | [] => ""
  | [x] => dumpsPlain x
  | x :: y :: t => dumpsPlain x ++ ", " ++ dumpsPlainList (y :: t)

def dumpsPlainPairs : List (String × JsonValue) → String
  | [] => ""
  | [(k, v)] => jsonQuote k ++ ": " ++ dumpsPlain v
  | (k, v) :: q :: t => jsonQuote k ++ ": " ++ dumpsPlain v ++ ", " ++ dumpsPlainPairs (q :: t)
end

/-- `json.dumps(v, sort_keys=True)`: serialize with every object's keys
in sorted order.  Sorting happens per object during serialization in
Python; serializing the recursively pre-sorted value is the same
string. -/
def json_dumps_sorted (v : JsonValue) : String :=
  dumpsPlain (normalizeJson v)

/-! ## SHA-256 (`hashlib.sha256`), over byte lists, 32-bit words as
`Nat` with explicit `% 2^32`. -/

def w32mod : Nat := 4294967296

/-- Rotate a 32-bit word right by `n` (for `x < 2^32`, `0 < n < 32`). -/
def rotr32 (n x : Nat) : Nat :=
  x / 2 ^ n + x % 2 ^ n * 2 ^ (32 - n)

def shr32 (n x : Nat) : Nat := x / 2 ^ n

def sha256K : List Nat :=
  [1116352408, 1899447441, 3049323471, 3921009573, 961987163,
   1508970993, 2453635748, 2870763221, 3624381080, 310598401,
   607225278, 1426881987, 1925078388, 2162078206, 2614888103,
   3248222580, 3835390401, 4022224774, 264347078, 604807628,
   770255983, 1249150122, 1555081692, 1996064986, 2554220882,
   2821834349, 2952996808, 3210313671, 3336571891, 3584528711,
   113926993, 338241895, 666307205, 773529912, 1294757372,
   1396182291, 1695183700, 1986661051, 2177026350, 2456956037,
   2730485921, 2820302411, 3259730800, 3345764771, 3516065817,
   3600352804, 4094571909, 275423344, 430227734, 506948616,
   659060556, 883997877, 958139571, 1322822218, 1537002063,
   1747873779, 1955562222, 2024104815, 2227730452, 2361852424,
   2428436474, 2756734187, 3204031479, 3329325298]

def sha256H0 : List Nat :=
  [1779033703, 3144134277, 1013904242, 2773480762,
   1359893119, 2600822924, 528734635, 1541459225]

/-- Big-endian 8-byte encoding. -/
def be64 (n : Nat) : List Nat :=
  [n / 2 ^ 56 % 256, n / 2 ^ 48 % 256, n / 2 ^ 40 % 256, n / 2 ^ 32 % 256,
   n / 2 ^ 24 % 256, n / 2 ^ 16 % 256, n / 2 ^ 8 % 256, n % 256]

/-- SHA-256 padding: append `0x80`, zeros to 56 mod 64, then the
64-bit big-endian bit length. -/
def sha256Pad (msg : List Nat) : List Nat :=
  let padZeros := (64 + 56 - (msg.length + 1) % 64) % 64
  msg ++ [128] ++ List.replicate padZeros 0 ++ be64 (8 * msg.length)

/-- Big-endian 4-byte groups to 32-bit words. -/
def bytesToWords : List Nat → List Nat
  | a :: b :: c :: d :: t => (a * 2 ^ 24 + b * 2 ^ 16 + c * 2 ^ 8 + d) :: bytesToWords t
  | _ => []

/-- Message-schedule extension from 16 to 64 words. -/
def sha256Extend (w : Array Nat) : Array Nat :=
  (List.range 48).foldl
    (fun w i =>
      let t := i + 16
      let x15 := w.getD (t - 15) 0
      let x2 := w.getD (t - 2) 0
      let s0 := (rotr32 7 x15) ^^^ (rotr32 18 x15) ^^^ (shr32 3 x15)
      let s1 := (rotr32 17 x2) ^^^ (rotr32 19 x2) ^^^ (shr32 10 x2)
      w.push ((w.getD (t - 16) 0 + s0 + w.getD (t - 7) 0 + s1) % w32mod))
    w

/-- One compression round. -/
def sha256Round (st : List Nat) (kw : Nat × Nat) : List Nat :=
  match st with
  | [a, b, c, d, e, f, g, h] =>
    let s1 := (rotr32 6 e) ^^^ (rotr32 11 e) ^^^ (rotr32 25 e)
    let ch := (e &&& f) ^^^ ((w32mod - 1 - e) &&& g)
    let t1 := (h + s1 + ch + kw.1 + kw.2) % w32mod
    let s0 := (rotr32 2 a) ^^^ (rotr32 13 a) ^^^ (rotr32 22 a)
    let mj := (a &&& b) ^^^ (a &&& c) ^^^ (b &&& c)
    let t2 := (s0 + mj) % w32mod
    [(t1 + t2) % w32mod, a, b, c, (d + t1) % w32mod, e, f, g]
  | other => other

/-- Compress one 64-byte block into the running hash. -/
def sha256Block (hsh : List Nat) (block : List Nat) : List Nat :=
  let w := sha256Extend (Array.mk (bytesToWords block))
  let st := (sha256K.zip w.toList).foldl sha256Round hsh
  (hsh.zip st).map (fun p => (p.1 + p.2) % w32mod)

def chunks64 : List Nat → List (List Nat)
  | [] => []
  | a :: t => (a :: t).take 64 :: chunks64 (t.drop 63)
termination_by l => l.length
decreasing_by simp [List.length_drop]; omega

/-- SHA-256 digest words of a byte string. -/
def sha256Words (msg : List Nat) : List Nat :=
  (chunks64 (sha256Pad msg)).foldl sha256Block sha256H0

/-- One 32-bit word as eight lowercase hex digits. -/
def hex8 (n : Nat) : String :=
  hex4 (n / 65536) ++ hex4 (n % 65536)

/-- `hashlib.sha256(bytes).hexdigest()`. -/
def sha256Hex (msg : List Nat) : String :=
  String.join ((sha256Words msg).map hex8)

/-- UTF-8 bytes of a string (`str.encode()`). -/
def strBytes (s : String) : List Nat :=
  s.toUTF8.toList.map (fun b => b.toNat)

/-- `detect_package_change`: parse the JSON file (the parsed contents
are the argument here; reading and parsing the file is the
environment's part), serialize it with `sort_keys=True` and return the
SHA-256 hex digest. -/
def detect_package_change (json_data : JsonValue) : String :=
  sha256Hex (strBytes (json_dumps_sorted json_data))

/-! ## Process-table model (`psutil`) and `kill`

`kill(proc_pid)` calls `psutil.Process(proc_pid)` (which raises
`psutil.NoSuchProcess` when no process with that pid exists), then
kills every element of `Process.children(recursive=True)` (the live
descendant processes), then kills the process itself.  The process
table is a list of `(pid, ppid)` pairs for the live processes; in this
sequential model no process exits between the enumeration and the kill
calls, so the individual kill calls succeed. -/

structure ProcTable where
  procs : List (Nat × Nat)
deriving DecidableEq

inductive PsError where
  | noSuchProcess : PsError
deriving DecidableEq

/-- Pids of the live processes. -/
def livePids (t : ProcTable) : List Nat :=
  t.procs.map Prod.fst

/-- Direct children of `pid`. -/
def childPids (t : ProcTable) (pid : Nat) : List Nat :=
  (t.procs.filter (fun p => p.2 == pid)).map Prod.fst

def descendantsAux (t : ProcTable) : Nat → Nat → List Nat
  | 0, _ => []
  | fuel + 1, pid => (childPids t pid).flatMap (fun c => c :: descendantsAux t fuel c)

/-- `psutil.Process(pid).children(recursive=True)`: all live descendant
processes.  Process parenthood forms a tree; the fuel (table size)
bounds every chain. -/
def descendants (t : ProcTable) (pid : Nat) : List Nat :=
  descendantsAux t t.procs.length pid

/-- `kill` from `exec.py`. -/
def kill (t : ProcTable) (proc_pid : Nat) : Except PsError ProcTable :=
  if proc_pid ∈ livePids t then
    .ok ⟨t.procs.filter (fun p => !(p.1 == proc_pid) && !(descendants t proc_pid).contains p.1)⟩
  else .error .noSuchProcess

/-! ## Process supervisor (`run_process_and_launch_url`)

The supervisor is driven by its environment: the lines the spawned
child writes, whether each matches `Next.FRONTEND_LISTENING_REGEX`
(with the captured URL group), whether it contains the known-failure
substring `"bin executable does not exist on disk"`, and the value
`detect_package_change(json_file_path)` would return were it called
right after that line.  One `ChildRun` is one spawned child; the list
of runs is the (finite prefix of the) script of children the loop
spawns. -/

structure OutLine where
  matchesReady : Bool
  url : String
  hasBinError : Bool
  manifestHash : String
deriving DecidableEq

structure ChildRun where
  hasStdout : Bool
  lines : List OutLine
deriving DecidableEq

structure SupConfig where
  frontendPath : String
  urljoinFn : String → String → String
  backendPresent : Bool

inductive SupEvent where
  | spawn : SupEvent
  | line (matchesReady : Bool) (url : String) : SupEvent
  | ready (url : String) : SupEvent
  | backendNote : SupEvent
  | updating : SupEvent
  | hint : SupEvent
  | killTree : SupEvent
deriving DecidableEq

structure SupState where
  first_run : Bool
  last_hash : String
deriving DecidableEq

/-- The URL reported on first readiness: the captured group, joined
with `config.frontend_path` when that is nonempty (`urljoin` is the
external `urllib.parse` function, a parameter of the model). -/
def readyUrl (cfg : SupConfig) (u : String) : String :=
  if cfg.frontendPath = "" then u else cfg.urljoinFn u cfg.frontendPath

structure LineRes where
  events : List SupEvent
  state : SupState
  restart : Bool

/-- Body of `for line in processes.stream_logs(...)`: classify the line;
on a ready match print ready (plus backend note) the first time and
"updating" afterwards; otherwise print the remediation hint when the
known-failure substring occurs, recompute the manifest hash and, if it
differs from `last_hash`, update `last_hash`, kill the process tree and
break out of the for loop (`restart`). -/
def processLine (cfg : SupConfig) (st : SupState) (l : OutLine) : LineRes :=
  if l.matchesReady then
    if st.first_run then
      { events := [.line true l.url, .ready (readyUrl cfg l.url)] ++
          (if cfg.backendPresent then [.backendNote] else []),
        state := { st with first_run := false }, restart := false }
    else
      { events := [.line true l.url, .updating], state := st, restart := false }
  else
    let hintEvts := if l.hasBinError then [SupEvent.hint] else []
    if l.manifestHash ≠ st.last_hash then
      { events := .line false l.url :: hintEvts ++ [.killTree],
        state := { st with last_hash := l.manifestHash }, restart := true }
    else
      { events := .line false l.url :: hintEvts, state := st, restart := false }

structure StreamRes where
  events : List SupEvent
  state : SupState
  restarted : Bool

/-- Drain the child's output stream, stopping early when a line
triggers a restart. -/
def processLines (cfg : SupConfig) : List OutLine → SupState → StreamRes
  | [], st => ⟨[], st, false⟩
  | l :: rest, st =>
    let r := processLine cfg st l
    if r.restart then ⟨r.events, r.state, true⟩
    else
      let r2 := processLines cfg rest r.state
      ⟨r.events ++ r2.events, r2.state, r2.restarted⟩

inductive SupOutcome where
  /-- The `while True` loop exited: a drained stream with no restart. -/
  | terminated : SupOutcome
  /-- The environment script ended while the loop wanted to spawn
  another child; the real loop would keep running. -/
  | scriptEnded : SupOutcome
deriving DecidableEq

structure SupRes where
  events : List SupEvent
  outcome : SupOutcome

/-- The `while True` loop: spawn the next child, drain its stream; if a
restart was triggered, loop; otherwise (`process is not None`) break.
A child with a falsy `stdout` skips the for loop entirely and breaks. -/
def runSupervisor (cfg : SupConfig) : List ChildRun → SupState → SupRes
  | [], _ => ⟨[], .scriptEnded⟩
  | r :: rest, st =>
    if r.hasStdout then
      let sr := processLines cfg r.lines st
      if sr.restarted then
        let tail := runSupervisor cfg rest sr.state
        ⟨.spawn :: (sr.events ++ tail.events), tail.outcome⟩
      else ⟨.spawn :: sr.events, .terminated⟩
    else ⟨[.spawn], .terminated⟩

/-- `run_process_and_launch_url`: `last_hash` is captured by
`detect_package_change` before the first spawn (`initialHash`), and
`first_run` starts `True`. -/
def run_process_and_launch_url (cfg : SupConfig) (initialHash : String)
    (runs : List ChildRun) : SupRes :=
  runSupervisor cfg runs ⟨true, initialHash⟩

/-- A line on which the code's hash check fires: the hash is only
recomputed in the `else` branch, i.e. on lines that do not match the
ready pattern. -/
def hashTrigger (last_hash : String) (l : OutLine) : Bool :=
  !l.matchesReady && decide (l.manifestHash ≠ last_hash)

/-! ## Filesystem model and `get_reload_paths`

Paths are absolute, represented as their component lists from the
filesystem root (so `Path.absolute()` is the identity and
`Path.parent` / `Path.name` are `dropLast` / last component, with the
root's name the empty string, as in `pathlib`).  `FileSys.node` gives,
for an existing path, whether it is a directory, its child entry names
in enumeration order, and the identity of the underlying file (the
inode, which `Path.samefile` compares via `stat`). -/

structure FSNode where
  isDir : Bool
  childNames : List String
  inode : Nat

structure FileSys where
  node : List String → Option FSNode

def parentDir (p : List String) : List String := p.dropLast

/-- `Path.name` (the root has name `""`). -/
def baseName (p : List String) : String := (p.getLast?).getD ""

def isDirB (fs : FileSys) (p : List String) : Bool :=
  match fs.node p with
  | some n => n.isDir
  | none => false

def entryNames (fs : FileSys) (p : List String) : List String :=
  match fs.node p with
  | some n => n.childNames
  | none => []

/-- `Path.iterdir()` (ancestors of existing paths exist, which is where
the source calls it). -/
def iterdir (fs : FileSys) (p : List String) : List (List String) :=
  (entryNames fs p).map (fun name => p ++ [name])

/-- Guard of the upward walk: the parent directory has a non-empty name
and one of its entries is named `__init__.py`. -/
def walkCond (fs : FileSys) (module_path : List String) : Bool :=
  baseName (parentDir module_path) != "" &&
    (entryNames fs (parentDir module_path)).contains "__init__.py"

/-- The `while` walk in `get_reload_paths`: go up one level while
`walkCond` holds. -/
def walkUp (fs : FileSys) (module_path : List String) : List String :=
  if h : walkCond fs module_path = true then walkUp fs (parentDir module_path)
  else module_path
termination_by module_path.length
decreasing_by
  have h1 : baseName (parentDir module_path) ≠ "" := by
    have hb := ((Bool.and_eq_true _ _).mp h).1
    simpa [bne_iff_ne] using hb
  have h2 : parentDir module_path ≠ [] := fun he => h1 (by rw [he]; rfl)
  have h3 : 0 < (parentDir module_path).length := List.length_pos.mpr h2
  simp only [parentDir, List.length_dropLast] at h3 ⊢
  omega

structure RConfig where
  /-- `Path(config.app_name)`. -/
  app_name : List String
  /-- `config.app_module.__file__` (resolved), when the module and its
  file are set. -/
  app_module_file : Option (List String)

/-- The `reload_paths` list of directories right before enumeration:
either `[Path(config.app_name).parent]` or the result of the upward
walk from the app module file's containing directory. -/
def reloadRootDirs (fs : FileSys) (cfg : RConfig) : List (List String) :=
  match cfg.app_module_file with
  | none => [parentDir cfg.app_name]
  | some f => [walkUp fs (parentDir f)]

/-- `str.startswith(pre)`; structural on the character lists so that it
evaluates by kernel reduction. -/
def strStartsWith (s pre : String) : Bool :=
  pre.data.isPrefixOf s.data

instance exceptDecEq {e a : Type} [DecidableEq e] [DecidableEq a] :
    DecidableEq (Except e a) := fun x y =>
  match x, y with
  | .error u, .error v =>
    if h : u = v then .isTrue (congrArg Except.error h)
    else .isFalse (fun hc => h (Except.error.inj hc))
  | .ok u, .ok v =>
    if h : u = v then .isTrue (congrArg Except.ok h)
    else .isFalse (fun hc => h (Except.ok.inj hc))
  | .error _, .ok _ => .isFalse (fun hc => Except.noConfusion hc)
  | .ok _, .error _ => .isFalse (fun hc => Except.noConfusion hc)

/-- The nested `is_excluded_by_default` closure. -/
def is_excluded_by_default (fs : FileSys) (path : List String) : Bool :=
  if isDirB fs path && strStartsWith (baseName path) "." then true
  else if isDirB fs path && strStartsWith (baseName path) "__" then true
  else baseName path == ".gitignore" || baseName path == "uploaded_files"

/-- The enumeration comprehension: children of each root dir, minus the
default-excluded entries (`.absolute()` is the identity here). -/
def defaultCandidates (fs : FileSys) (cfg : RConfig) : List (List String) :=
  (reloadRootDirs fs cfg).flatMap
    (fun dir => (iterdir fs dir).filter (fun path => !is_excluded_by_default fs path))

/-- `Path.samefile`: compares `stat` identity; `stat` raises
`FileNotFoundError` (modelled as `.error ()`) when either path does not
exist. -/
def samefile (fs : FileSys) (p q : List String) : Except Unit Bool :=
  match fs.node p, fs.node q with
  | some a, some b => .ok (a.inode == b.inode)
  | _, _ => .error ()

/-- `all(not path.samefile(exclude) for exclude in exclude_dirs)`:
short-circuits at the first exclude that `samefile`-matches. -/
def notSameAsAnyExclude (fs : FileSys) (path : List String) :
    List (List String) → Except Unit Bool
  | [] => .ok true
  | e :: rest =>
    match samefile fs path e with
    | .error u => .error u
    | .ok true => .ok false
    | .ok false => notSameAsAnyExclude fs path rest

/-- The final filtering comprehension over the combined tuple. -/
def filterExcludes (fs : FileSys) :
    List (List String) → List (List String) → Except Unit (List (List String))
  | [], _ => .ok []
  | p :: rest, excludes =>
    match notSameAsAnyExclude fs p excludes with
    | .error u => .error u
    | .ok true =>
      match filterExcludes fs rest excludes with
      | .error u => .error u
      | .ok l => .ok (p :: l)
    | .ok false => filterExcludes fs rest excludes

/-- `get_reload_paths`: enumerate the resolved root's children minus
default exclusions, append the include dirs, and if exclude dirs were
given filter out every path `samefile`-equal to one of them. -/
def get_reload_paths (fs : FileSys) (cfg : RConfig)
    (include_dirs exclude_dirs : List (List String)) :
    Except Unit (List (List String)) :=
  let reload_paths := defaultCandidates fs cfg ++ include_dirs
  if exclude_dirs.isEmpty then .ok reload_paths
  else filterExcludes fs reload_paths exclude_dirs


/-! ## Statement-support definitions and concrete fixtures -/

/-- Iterated `Path.parent`. -/
def upN : List String → Nat → List String
  | p, 0 => p
  | p, k + 1 => upN (parentDir p) k

/-- `Path.exists()` in the model. -/
def pathExists (fs : FileSys) (p : List String) : Bool :=
  (fs.node p).isSome

/-- The "ready"/"updating" notifications among a trace. -/
def isNotifEvent : SupEvent → Bool
  | .ready _ => true
  | .updating => true
  | _ => false

def notifEvents (evts : List SupEvent) : List SupEvent :=
  evts.filter isNotifEvent

/-- Captured URLs of the processed lines that matched the ready
pattern, in processing order. -/
def matchedUrls (evts : List SupEvent) : List String :=
  evts.filterMap (fun e =>
    match e with
    | .line true u => some u
    | _ => none)

/-- The notification sequence the supervisor should produce for a given
sequence of ready-matching lines: one "ready" on the first match, one
"updating" on every later match. -/
def expectedNotifs (cfg : SupConfig) : List String → List SupEvent
  | [] => []
  | u :: rest => .ready (readyUrl cfg u) :: rest.map (fun _ => SupEvent.updating)

/-- A concrete supervisor configuration for concrete evaluations. -/
def cfgDemo : SupConfig :=
  { frontendPath := "", urljoinFn := fun u _ => u, backendPresent := true }

/-- Concrete filesystem: a package two levels deep, used to exercise
the upward walk. -/
def fsWalkDemo : FileSys :=
  { node := fun p =>
      if p = [] then some { isDir := true, childNames := ["home"], inode := 0 }
      else if p = ["home"] then some { isDir := true, childNames := ["proj"], inode := 1 }
      else if p = ["home", "proj"] then
        some { isDir := true, childNames := ["pkg", "README"], inode := 2 }
      else if p = ["home", "proj", "pkg"] then
        some { isDir := true, childNames := ["__init__.py", "sub"], inode := 3 }
      else if p = ["home", "proj", "pkg", "sub"] then
        some { isDir := true, childNames := ["__init__.py", "mod.py"], inode := 4 }
      else if p = ["home", "proj", "pkg", "sub", "mod.py"] then
        some { isDir := false, childNames := [], inode := 5 }
      else if p = ["home", "proj", "pkg", "__init__.py"] then
        some { isDir := false, childNames := [], inode := 6 }
      else if p = ["home", "proj", "pkg", "sub", "__init__.py"] then
        some { isDir := false, childNames := [], inode := 7 }
      else if p = ["home", "proj", "README"] then
        some { isDir := false, childNames := [], inode := 8 }
      else none }

def cfgWalkDemo : RConfig :=
  { app_name := ["app", "main"],
    app_module_file := some ["home", "proj", "pkg", "sub", "mod.py"] }

/-- Concrete configuration without an app module file: the resolver
roots at `Path(config.app_name).parent`, i.e. `["app"]`. -/
def cfgRootDemo : RConfig :=
  { app_name := ["app", "main"], app_module_file := none }

/-- The root of the spec example: children `.git`, `__pycache__`,
`src`, `assets` (directories) and `.gitignore` (a file). -/
def fsRootDemo : FileSys :=
  { node := fun p =>
      if p = ["app"] then
        some { isDir := true,
               childNames := [".git", "__pycache__", "src", "assets", ".gitignore"],
               inode := 10 }
      else if p = ["app", ".git"] then some { isDir := true, childNames := [], inode := 11 }
      else if p = ["app", "__pycache__"] then some { isDir := true, childNames := [], inode := 12 }
      else if p = ["app", "src"] then some { isDir := true, childNames := [], inode := 13 }
      else if p = ["app", "assets"] then some { isDir := true, childNames := [], inode := 14 }
      else if p = ["app", ".gitignore"] then some { isDir := false, childNames := [], inode := 15 }
      else none }

/-- A root containing a hidden regular file `.env` and a directory
`src`. -/
def fsHiddenFileDemo : FileSys :=
  { node := fun p =>
      if p = ["app"] then
        some { isDir := true, childNames := [".env", "src"], inode := 20 }
      else if p = ["app", ".env"] then some { isDir := false, childNames := [], inode := 21 }
      else if p = ["app", "src"] then some { isDir := true, childNames := [], inode := 22 }
      else none }

/-- A root with children `src` and `data`, a hidden directory
`.hidden` reachable only as an explicit include, and a symlink-style
second path `links/data-link` with the same inode as `app/data`. -/
def fsLinkDemo : FileSys :=
  { node := fun p =>
      if p = ["app"] then
        some { isDir := true, childNames := ["src", "data"], inode := 30 }
      else if p = ["app", "src"] then some { isDir := true, childNames := [], inode := 31 }
      else if p = ["app", "data"] then some { isDir := true, childNames := [], inode := 32 }
      else if p = ["links", "data-link"] then some { isDir := true, childNames := [], inode := 32 }
      else if p = ["links"] then some { isDir := true, childNames := ["data-link"], inode := 33 }
      else if p = ["app", ".hidden"] then some { isDir := true, childNames := [], inode := 34 }
      else none }

/-- A root with no children at all. -/
def fsEmptyDemo : FileSys :=
  { node := fun p =>
      if p = ["app"] then some { isDir := true, childNames := [], inode := 40 }
      else none }

/-- A root whose only child entry `ghost` is dangling (listed by the
directory but with no stat-able target, like a broken symlink). -/
def fsDanglingDemo : FileSys :=
  { node := fun p =>
      if p = ["app"] then some { isDir := true, childNames := ["ghost"], inode := 50 }
      else if p = ["app", "ok"] then some { isDir := true, childNames := [], inode := 51 }
      else none }

/-! ## Fingerprint stability: toolkit about `findVal` and `sortPairs` -/

theorem sortPairs_perm (l : List (String × JsonValue)) : List.Perm (sortPairs l) l :=
  List.perm_insertionSort keyLe l

theorem sortPairs_sorted (l : List (String × JsonValue)) :
    (sortPairs l).Pairwise keyLe :=
  List.sorted_insertionSort keyLe l

theorem findVal_eq_none_iff (k : String) (l : List (String × JsonValue)) :
    findVal k l = none ↔ k ∉ keysOf l := by
  induction l with
  | nil => simp [findVal, keysOf]
  | cons p t ih =>
    obtain ⟨k', v⟩ := p
    by_cases hk : k' = k
    · subst hk
      simp [findVal, keysOf]
    · simp [findVal, hk, keysOf, Ne.symm hk] at ih ⊢
      exact ih

theorem findVal_some_mem {k : String} {v : JsonValue} {l : List (String × JsonValue)}
    (h : findVal k l = some v) : (k, v) ∈ l := by
  induction l with
  | nil => simp [findVal] at h
  | cons p t ih =>
    obtain ⟨k', w⟩ := p
    by_cases hk : k' = k
    · subst hk
      simp [findVal] at h
      simp [h]
    · simp [findVal, hk] at h
      exact List.mem_cons_of_mem _ (ih h)

theorem mem_findVal {k : String} {v : JsonValue} {l : List (String × JsonValue)}
    (hnd : (keysOf l).Nodup) (h : (k, v) ∈ l) : findVal k l = some v := by
  induction l with
  | nil => simp at h
  | cons p t ih =>
    obtain ⟨k', w⟩ := p
    simp only [keysOf, List.map_cons, List.nodup_cons] at hnd
    rcases List.mem_cons.mp h with h1 | h1
    · obtain ⟨hk, hv⟩ := Prod.mk.injEq .. ▸ h1
      injection h1 with h1a h1b
      subst h1a; subst h1b
      simp [findVal]
    · have hk : k' ≠ k := by
        intro he
        subst he
        exact hnd.1 (List.mem_map.mpr ⟨(k', v), h1, rfl⟩)
      simp only [findVal, hk, if_false]
      exact ih hnd.2 h1

theorem keysOf_perm {l₁ l₂ : List (String × JsonValue)} (h : List.Perm l₁ l₂) :
    List.Perm (keysOf l₁) (keysOf l₂) :=
  h.map Prod.fst

theorem findVal_perm {l₁ l₂ : List (String × JsonValue)} (h : List.Perm l₁ l₂)
    (hnd : (keysOf l₁).Nodup) (k : String) : findVal k l₁ = findVal k l₂ := by
  cases hv : findVal k l₁ with
  | none =>
    have hk : k ∉ keysOf l₁ := (findVal_eq_none_iff k l₁).mp hv
    have hk2 : k ∉ keysOf l₂ := fun hm => hk ((keysOf_perm h).mem_iff.mpr hm)
    exact ((findVal_eq_none_iff k l₂).mpr hk2).symm
  | some v =>
    have hm : (k, v) ∈ l₂ := h.mem_iff.mp (findVal_some_mem hv)
    have hnd2 : (keysOf l₂).Nodup := (keysOf_perm h).nodup_iff.mp hnd
    exact (mem_findVal hnd2 hm).symm

theorem keysOf_normJsonPairs (l : List (String × JsonValue)) :
    keysOf (normJsonPairs l) = keysOf l := by
  induction l with
  | nil => rfl
  | cons p t ih =>
    obtain ⟨k, v⟩ := p
    simp [normJsonPairs, keysOf] at ih ⊢
    exact ih

theorem findVal_normJsonPairs (k : String) (l : List (String × JsonValue)) :
    findVal k (normJsonPairs l) = (findVal k l).map normalizeJson := by
  induction l with
  | nil => rfl
  | cons p t ih =>
    obtain ⟨k', v⟩ := p
    by_cases hk : k' = k
    · subst hk
      simp [normJsonPairs, findVal]
    · simp [normJsonPairs, findVal, hk]
      exact ih

theorem sortPairs_pairwise_lt {l : List (String × JsonValue)}
    (h : (keysOf l).Nodup) : (sortPairs l).Pairwise keyLt := by
  have hnd : (keysOf (sortPairs l)).Nodup :=
    (keysOf_perm (sortPairs_perm l)).nodup_iff.mpr h
  have hne : (sortPairs l).Pairwise (fun p q => p.1 ≠ q.1) :=
    (List.pairwise_map).mp hnd
  have := (sortPairs_sorted l).and hne
  exact this.imp (fun hpq => lt_of_le_of_ne hpq.1 hpq.2)

theorem eq_of_pairwiseLt_findVal :
    ∀ (l₁ l₂ : List (String × JsonValue)), l₁.Pairwise keyLt → l₂.Pairwise keyLt →
      (∀ k, findVal k l₁ = findVal k l₂) → l₁ = l₂ := by
  intro l₁
  induction l₁ with
  | nil =>
    intro l₂ _ _ hf
    cases l₂ with
    | nil => rfl
    | cons q t2 =>
      obtain ⟨k2, v2⟩ := q
      have := hf k2
      simp [findVal] at this
  | cons p t ih =>
    intro l₂ h1 h2 hf
    obtain ⟨k1, v1⟩ := p
    cases l₂ with
    | nil =>
      have := hf k1
      simp [findVal] at this
    | cons q t2 =>
      obtain ⟨k2, v2⟩ := q
      have hv1 : findVal k1 ((k2, v2) :: t2) = some v1 := by
        rw [← hf k1]; simp [findVal]
      have hv2 : findVal k2 ((k1, v1) :: t) = some v2 := by
        rw [hf k2]; simp [findVal]
      have hkeq : k1 = k2 := by
        by_cases hk : k2 = k1
        · exact hk.symm
        · exfalso
          simp only [findVal, hk, if_false] at hv1
          have hm1 : (k1, v1) ∈ t2 := findVal_some_mem hv1
          have hlt1 : k2 < k1 := List.rel_of_pairwise_cons h2 hm1
          have hk' : k1 ≠ k2 := fun he => hk he.symm
          simp only [findVal, hk', if_false] at hv2
          have hm2 : (k2, v2) ∈ t := findVal_some_mem hv2
          have hlt2 : k1 < k2 := List.rel_of_pairwise_cons h1 hm2
          exact absurd hlt1 (not_lt.mpr hlt2.le)
      subst hkeq
      have hveq : v1 = v2 := by
        simp [findVal] at hv2
        exact hv2
      subst hveq
      have htail : ∀ k, findVal k t = findVal k t2 := by
        intro k
        by_cases hk : k = k1
        · subst hk
          have hn1 : k ∉ keysOf t := by
            intro hm
            obtain ⟨pp, hpp, hppk⟩ := List.mem_map.mp hm
            have hlt : k < pp.1 := List.rel_of_pairwise_cons h1 hpp
            rw [hppk] at hlt
            exact lt_irrefl _ hlt
          have hn2 : k ∉ keysOf t2 := by
            intro hm
            obtain ⟨pp, hpp, hppk⟩ := List.mem_map.mp hm
            have hlt : k < pp.1 := List.rel_of_pairwise_cons h2 hpp
            rw [hppk] at hlt
            exact lt_irrefl _ hlt
          rw [(findVal_eq_none_iff k t).mpr hn1, (findVal_eq_none_iff k t2).mpr hn2]
        · have hfk := hf k
          simp only [findVal] at hfk
          simp only [if_neg (show ¬ k1 = k from fun h => hk h.symm)] at hfk
          exact hfk
      rw [ih t2 h1.of_cons h2.of_cons htail]

theorem pyFind_exists :
    ∀ {k : String} {v : JsonValue} {ys : List (String × JsonValue)},
      pyFind k v ys = true → ∃ w, (k, w) ∈ ys ∧ pyEq v w = true := by
  intro k v ys
  induction ys with
  | nil => intro h; simp [pyFind] at h
  | cons q t ih =>
    obtain ⟨k', w⟩ := q
    intro h
    simp only [pyFind, Bool.or_eq_true, Bool.and_eq_true, beq_iff_eq] at h
    rcases h with ⟨hk, hv⟩ | h
    · subst hk
      exact ⟨w, List.mem_cons_self _ _, hv⟩
    · obtain ⟨w', hm, hv⟩ := ih h
      exact ⟨w', List.mem_cons_of_mem _ hm, hv⟩

theorem pyEqPairs_mem :
    ∀ (xs : List (String × JsonValue)) {ys : List (String × JsonValue)}
      {k : String} {v : JsonValue},
      pyEqPairs xs ys = true → (k, v) ∈ xs → ∃ w, (k, w) ∈ ys ∧ pyEq v w = true := by
  intro xs
  induction xs with
  | nil => intro ys k v _ hm; simp at hm
  | cons p t ih =>
    intro ys k v h hm
    obtain ⟨k', v'⟩ := p
    simp only [pyEqPairs, Bool.and_eq_true] at h
    rcases List.mem_cons.mp hm with h1 | h1
    · injection h1 with ha hb
      subst ha; subst hb
      exact pyFind_exists h.1
    · exact ih h.2 h1

theorem keysOf_iff_of_pyEqPairs {xs ys : List (String × JsonValue)}
    (hlen : xs.length = ys.length) (hx : (keysOf xs).Nodup) (hy : (keysOf ys).Nodup)
    (hp : pyEqPairs xs ys = true) (k : String) : k ∈ keysOf xs ↔ k ∈ keysOf ys := by
  have hsub : ∀ a, a ∈ keysOf xs → a ∈ keysOf ys := by
    intro a ha
    obtain ⟨p, hm, hpk⟩ := List.mem_map.mp ha
    have hm' : (p.1, p.2) ∈ xs := by simpa using hm
    obtain ⟨w, hw, _⟩ := pyEqPairs_mem xs hp hm'
    rw [← hpk]
    exact List.mem_map.mpr ⟨(p.1, w), hw, rfl⟩
  have hfin : (keysOf xs).toFinset = (keysOf ys).toFinset := by
    apply Finset.eq_of_subset_of_card_le
    · intro a ha
      simp only [List.mem_toFinset] at ha ⊢
      exact hsub a ha
    · rw [List.toFinset_card_of_nodup hx, List.toFinset_card_of_nodup hy]
      simp [keysOf, hlen]
  constructor
  · exact hsub k
  · intro h
    have hm : k ∈ (keysOf ys).toFinset := List.mem_toFinset.mpr h
    rw [← hfin] at hm
    exact List.mem_toFinset.mp hm

theorem wfJsonPairs_mem :
    ∀ (l : List (String × JsonValue)) {k : String} {v : JsonValue},
      wfJsonPairs l = true → (k, v) ∈ l → wfJson v = true := by
  intro l
  induction l with
  | nil => intro k v _ hm; simp at hm
  | cons p t ih =>
    intro k v h hm
    obtain ⟨k', v'⟩ := p
    simp only [wfJsonPairs, Bool.and_eq_true] at h
    rcases List.mem_cons.mp hm with h1 | h1
    · injection h1 with _ hb
      subst hb
      exact h.1
    · exact ih h.2 h1

theorem normList_congr_of (n : Nat)
    (ihf : ∀ a b : JsonValue, sizeOf a ≤ n → wfJson a = true → wfJson b = true →
        pyEq a b = true → normalizeJson a = normalizeJson b) :
    ∀ (xs : List JsonValue) {ys : List JsonValue}, sizeOf xs ≤ n →
      wfJsonList xs = true → wfJsonList ys = true → pyEqList xs ys = true →
      normJsonList xs = normJsonList ys := by
  intro xs
  induction xs with
  | nil =>
    intro ys _ _ _ heq
    cases ys with
    | nil => rfl
    | cons y t => simp [pyEqList] at heq
  | cons x t ih =>
    intro ys hsz hwa hwb heq
    cases ys with
    | nil => simp [pyEqList] at heq
    | cons y t2 =>
      simp only [pyEqList, Bool.and_eq_true] at heq
      simp only [wfJsonList, Bool.and_eq_true] at hwa hwb
      have hszx : sizeOf x ≤ n := by
        simp only [List.cons.sizeOf_spec] at hsz
        omega
      have hszt : sizeOf t ≤ n := by
        simp only [List.cons.sizeOf_spec] at hsz
        omega
      simp only [normJsonList]
      rw [ihf x y hszx hwa.1 hwb.1 heq.1, ih hszt hwa.2 hwb.2 heq.2]

theorem pyEq_norm_aux :
    ∀ (n : Nat) (a b : JsonValue), sizeOf a ≤ n → wfJson a = true → wfJson b = true →
      pyEq a b = true → normalizeJson a = normalizeJson b := by
  intro n
  induction n with
  | zero =>
    intro a b hsz _ _ _
    exfalso
    cases a <;> simp at hsz
  | succ n ih =>
    intro a b hsz hwa hwb heq
    cases a <;> cases b <;> (try (exfalso; simp [pyEq] at heq; done))
    case null.null => rfl
    case bool.bool x y =>
      simp only [pyEq, beq_iff_eq] at heq
      rw [heq]
    case num.num x y =>
      simp only [pyEq, beq_iff_eq] at heq
      rw [heq]
    case str.str x y =>
      simp only [pyEq, beq_iff_eq] at heq
      rw [heq]
    case arr.arr xs ys =>
      simp only [pyEq] at heq
      simp only [wfJson] at hwa hwb
      have hszl : sizeOf xs ≤ n := by
        simp only [JsonValue.arr.sizeOf_spec] at hsz
        omega
      simp only [normalizeJson]
      rw [normList_congr_of n ih xs hszl hwa hwb heq]
    case obj.obj xs ys =>
      simp only [pyEq, Bool.and_eq_true, beq_iff_eq] at heq
      simp only [wfJson, Bool.and_eq_true, decide_eq_true_eq] at hwa hwb
      have hszl : sizeOf xs ≤ n := by
        simp only [JsonValue.obj.sizeOf_spec] at hsz
        omega
      simp only [normalizeJson]
      have hndx : (keysOf (normJsonPairs xs)).Nodup := by
        rw [keysOf_normJsonPairs]; exact hwa.1
      have hndy : (keysOf (normJsonPairs ys)).Nodup := by
        rw [keysOf_normJsonPairs]; exact hwb.1
      have hndsx : (keysOf (sortPairs (normJsonPairs xs))).Nodup :=
        (keysOf_perm (sortPairs_perm _)).nodup_iff.mpr hndx
      have hndsy : (keysOf (sortPairs (normJsonPairs ys))).Nodup :=
        (keysOf_perm (sortPairs_perm _)).nodup_iff.mpr hndy
      have hmain : sortPairs (normJsonPairs xs) = sortPairs (normJsonPairs ys) := by
        apply eq_of_pairwiseLt_findVal _ _ (sortPairs_pairwise_lt hndx)
          (sortPairs_pairwise_lt hndy)
        intro k
        rw [findVal_perm (sortPairs_perm (normJsonPairs xs)) hndsx k,
            findVal_perm (sortPairs_perm (normJsonPairs ys)) hndsy k,
            findVal_normJsonPairs, findVal_normJsonPairs]
        cases hv : findVal k xs with
        | none =>
          have hk : k ∉ keysOf xs := (findVal_eq_none_iff _ _).mp hv
          have hk2 : k ∉ keysOf ys := fun hm =>
            hk ((keysOf_iff_of_pyEqPairs heq.1 hwa.1 hwb.1 heq.2 k).mpr hm)
          rw [(findVal_eq_none_iff _ _).mpr hk2]
        | some v =>
          have hmv : (k, v) ∈ xs := findVal_some_mem hv
          obtain ⟨w, hw, hvw⟩ := pyEqPairs_mem xs heq.2 hmv
          rw [mem_findVal hwb.1 hw]
          have hszv : sizeOf v ≤ n := by
            have h1 : sizeOf (k, v) < sizeOf xs := List.sizeOf_lt_of_mem hmv
            have h2 : sizeOf (k, v) = 1 + sizeOf k + sizeOf v := by simp
            omega
          have hwv : wfJson v = true := wfJsonPairs_mem xs hwa.2 hmv
          have hww : wfJson w = true := wfJsonPairs_mem ys hwb.2 hw
          simp only [Option.map_some']
          rw [ih v w hszv hwv hww hvw]
      rw [hmain]

/-! ## Supervisor: per-line and per-stream lemmas -/

theorem notifEvents_append (a b : List SupEvent) :
    notifEvents (a ++ b) = notifEvents a ++ notifEvents b :=
  List.filter_append _ _

theorem matchedUrls_append (a b : List SupEvent) :
    matchedUrls (a ++ b) = matchedUrls a ++ matchedUrls b :=
  List.filterMap_append _ _ _

theorem processLine_matched_first (cfg : SupConfig) (st : SupState) (l : OutLine)
    (hm : l.matchesReady = true) (hf : st.first_run = true) :
    matchedUrls (processLine cfg st l).events = [l.url] ∧
    notifEvents (processLine cfg st l).events = [SupEvent.ready (readyUrl cfg l.url)] ∧
    (processLine cfg st l).state = { st with first_run := false } ∧
    (processLine cfg st l).restart = false ∧
    hashTrigger st.last_hash l = false := by
  cases hbp : cfg.backendPresent <;>
    simp [processLine, hm, hf, hbp, matchedUrls, notifEvents, isNotifEvent, hashTrigger]

theorem processLine_matched_later (cfg : SupConfig) (st : SupState) (l : OutLine)
    (hm : l.matchesReady = true) (hf : st.first_run = false) :
    matchedUrls (processLine cfg st l).events = [l.url] ∧
    notifEvents (processLine cfg st l).events = [SupEvent.updating] ∧
    (processLine cfg st l).state = st ∧
    (processLine cfg st l).restart = false ∧
    hashTrigger st.last_hash l = false := by
  simp [processLine, hm, hf, matchedUrls, notifEvents, isNotifEvent, hashTrigger]

theorem processLine_noMatch (cfg : SupConfig) (st : SupState) (l : OutLine)
    (hm : l.matchesReady = false) :
    matchedUrls (processLine cfg st l).events = [] ∧
    notifEvents (processLine cfg st l).events = [] ∧
    (processLine cfg st l).state.first_run = st.first_run ∧
    (processLine cfg st l).restart = hashTrigger st.last_hash l ∧
    (processLine cfg st l).state.last_hash =
      (if hashTrigger st.last_hash l = true then l.manifestHash else st.last_hash) ∧
    (hashTrigger st.last_hash l = true →
      SupEvent.killTree ∈ (processLine cfg st l).events) := by
  by_cases hh : l.manifestHash ≠ st.last_hash <;> by_cases hb : l.hasBinError <;>
    simp [processLine, hm, hh, hb, matchedUrls, notifEvents, isNotifEvent, hashTrigger]

theorem hashTrigger_not_matched {h : String} {l : OutLine}
    (ht : hashTrigger h l = true) : l.matchesReady = false := by
  by_cases hm : l.matchesReady = true
  · simp [hashTrigger, hm] at ht
  · simpa using hm

theorem processLine_no_trigger (cfg : SupConfig) (st : SupState) (l : OutLine)
    (h : hashTrigger st.last_hash l = false) :
    (processLine cfg st l).restart = false ∧
    (processLine cfg st l).state.last_hash = st.last_hash := by
  by_cases hm : l.matchesReady = true
  · by_cases hf : st.first_run = true
    · obtain ⟨_, _, hst, hre, _⟩ := processLine_matched_first cfg st l hm hf
      rw [hre, hst]
      exact ⟨rfl, rfl⟩
    · obtain ⟨_, _, hst, hre, _⟩ := processLine_matched_later cfg st l hm (by simpa using hf)
      rw [hre, hst]
      exact ⟨rfl, rfl⟩
  · obtain ⟨_, _, _, hre, hlh, _⟩ := processLine_noMatch cfg st l (by simpa using hm)
    refine ⟨by rw [hre, h], ?_⟩
    rw [hlh]
    simp [h]

theorem processLine_trigger (cfg : SupConfig) (st : SupState) (l : OutLine)
    (h : hashTrigger st.last_hash l = true) :
    (processLine cfg st l).restart = true ∧
    (processLine cfg st l).state.last_hash = l.manifestHash ∧
    SupEvent.killTree ∈ (processLine cfg st l).events := by
  have hm : l.matchesReady = false := hashTrigger_not_matched h
  obtain ⟨_, _, _, hre, hlh, hk⟩ := processLine_noMatch cfg st l hm
  refine ⟨by rw [hre, h], ?_, hk h⟩
  rw [hlh]
  simp [h]

theorem processLines_cons (cfg : SupConfig) (l : OutLine) (rest : List OutLine)
    (st : SupState) :
    processLines cfg (l :: rest) st =
      (if (processLine cfg st l).restart then
        ⟨(processLine cfg st l).events, (processLine cfg st l).state, true⟩
      else
        ⟨(processLine cfg st l).events ++
            (processLines cfg rest (processLine cfg st l).state).events,
          (processLines cfg rest (processLine cfg st l).state).state,
          (processLines cfg rest (processLine cfg st l).state).restarted⟩) := rfl

theorem processLines_restart_char (cfg : SupConfig) :
    ∀ (lines : List OutLine) (st : SupState),
      (processLines cfg lines st).restarted = lines.any (hashTrigger st.last_hash) ∧
      ((processLines cfg lines st).restarted = false →
        (processLines cfg lines st).state.last_hash = st.last_hash) ∧
      ((processLines cfg lines st).restarted = true →
        SupEvent.killTree ∈ (processLines cfg lines st).events) := by
  intro lines
  induction lines with
  | nil =>
    intro st
    refine ⟨rfl, fun _ => rfl, fun h => by simp [processLines] at h⟩
  | cons l rest ih =>
    intro st
    rw [processLines_cons]
    by_cases ht : hashTrigger st.last_hash l = true
    · obtain ⟨hre, hlh, hk⟩ := processLine_trigger cfg st l ht
      rw [hre]
      simp only [if_true]
      exact ⟨by simp [ht], fun h => by simp at h, fun _ => hk⟩
    · have ht' : hashTrigger st.last_hash l = false := by simpa using ht
      obtain ⟨hre, hlh⟩ := processLine_no_trigger cfg st l ht'
      rw [hre]
      simp only [Bool.false_eq_true, if_false]
      obtain ⟨ih1, ih2, ih3⟩ := ih (processLine cfg st l).state
      rw [hlh] at ih1 ih2
      refine ⟨by simp [List.any_cons, ht', ih1], fun h => ?_, fun h => ?_⟩
      · simp only [h] at ih2 ⊢
        exact ih2 trivial
      · simp only [h] at ih3
        exact List.mem_append_right _ (ih3 trivial)

theorem processLines_cons_restart (cfg : SupConfig) (l : OutLine)
    (rest : List OutLine) (st : SupState)
    (h : (processLine cfg st l).restart = true) :
    processLines cfg (l :: rest) st =
      ⟨(processLine cfg st l).events, (processLine cfg st l).state, true⟩ := by
  rw [processLines_cons, if_pos h]

theorem processLines_cons_continue (cfg : SupConfig) (l : OutLine)
    (rest : List OutLine) (st : SupState)
    (h : (processLine cfg st l).restart = false) :
    processLines cfg (l :: rest) st =
      ⟨(processLine cfg st l).events ++
          (processLines cfg rest (processLine cfg st l).state).events,
        (processLines cfg rest (processLine cfg st l).state).state,
        (processLines cfg rest (processLine cfg st l).state).restarted⟩ := by
  rw [processLines_cons, if_neg (by simp [h])]

theorem processLines_stop (cfg : SupConfig) :
    ∀ (pre : List OutLine) (l0 : OutLine) (post : List OutLine) (st : SupState),
      (∀ l ∈ pre, hashTrigger st.last_hash l = false) →
      hashTrigger st.last_hash l0 = true →
      processLines cfg (pre ++ l0 :: post) st = processLines cfg (pre ++ [l0]) st ∧
      (processLines cfg (pre ++ l0 :: post) st).state.last_hash = l0.manifestHash ∧
      (processLines cfg (pre ++ l0 :: post) st).restarted = true := by
  intro pre
  induction pre with
  | nil =>
    intro l0 post st _ hl0
    obtain ⟨hre, hlh, _⟩ := processLine_trigger cfg st l0 hl0
    simp only [List.nil_append]
    rw [processLines_cons_restart cfg l0 post st hre,
      processLines_cons_restart cfg l0 [] st hre]
    exact ⟨rfl, hlh, rfl⟩
  | cons l pre ih =>
    intro l0 post st hpre hl0
    have hl : hashTrigger st.last_hash l = false := hpre l (List.mem_cons_self _ _)
    obtain ⟨hre, hlh⟩ := processLine_no_trigger cfg st l hl
    simp only [List.cons_append]
    rw [processLines_cons_continue cfg l (pre ++ l0 :: post) st hre,
      processLines_cons_continue cfg l (pre ++ [l0]) st hre]
    have hpre' : ∀ x ∈ pre, hashTrigger (processLine cfg st l).state.last_hash x = false := by
      rw [hlh]
      intro x hx
      exact hpre x (List.mem_cons_of_mem _ hx)
    have hl0' : hashTrigger (processLine cfg st l).state.last_hash l0 = true := by
      rw [hlh]
      exact hl0
    obtain ⟨ih1, ih2, ih3⟩ := ih l0 post (processLine cfg st l).state hpre' hl0'
    rw [ih1] at ih2 ih3
    rw [ih1]
    exact ⟨rfl, ih2, ih3⟩

theorem processLines_notifs (cfg : SupConfig) :
    ∀ (lines : List OutLine) (st : SupState),
      (st.first_run = true →
        notifEvents (processLines cfg lines st).events =
          expectedNotifs cfg (matchedUrls (processLines cfg lines st).events) ∧
        (processLines cfg lines st).state.first_run =
          (matchedUrls (processLines cfg lines st).events).isEmpty) ∧
      (st.first_run = false →
        notifEvents (processLines cfg lines st).events =
          (matchedUrls (processLines cfg lines st).events).map
            (fun _ => SupEvent.updating) ∧
        (processLines cfg lines st).state.first_run = false) := by
  intro lines
  induction lines with
  | nil =>
    intro st
    constructor
    · intro h
      exact ⟨rfl, by simp [processLines, matchedUrls, h]⟩
    · intro h
      exact ⟨rfl, by simp [processLines, h]⟩
  | cons l rest ih =>
    intro st
    by_cases hm : l.matchesReady = true
    · by_cases hf : st.first_run = true
      · -- first ready match: one-time ready notification, flag cleared
        obtain ⟨hmu, hne, hst, hre, _⟩ := processLine_matched_first cfg st l hm hf
        rw [processLines_cons_continue cfg l rest st hre]
        constructor
        · intro _
          obtain ⟨ihA, ihB⟩ := (ih (processLine cfg st l).state).2 (by rw [hst])
          rw [notifEvents_append, matchedUrls_append, hmu, hne, ihA]
          constructor
          · simp [expectedNotifs]
          · rw [ihB]
            simp
        · intro h
          rw [hf] at h
          cases h
      · -- flag already cleared: the match yields an updating notification
        have hf' : st.first_run = false := by simpa using hf
        obtain ⟨hmu, hne, hst, hre, _⟩ := processLine_matched_later cfg st l hm hf'
        rw [processLines_cons_continue cfg l rest st hre]
        constructor
        · intro h
          rw [hf'] at h
          cases h
        · intro _
          obtain ⟨ihA, ihB⟩ := (ih (processLine cfg st l).state).2 (by rw [hst, hf'])
          rw [notifEvents_append, matchedUrls_append, hmu, hne, ihA]
          exact ⟨by simp, ihB⟩
    · -- non-matching line: no notification, flag unchanged
      have hm' : l.matchesReady = false := by simpa using hm
      obtain ⟨hmu, hne, hfr, hre, _, _⟩ := processLine_noMatch cfg st l hm'
      by_cases htr : (processLine cfg st l).restart = true
      · rw [processLines_cons_restart cfg l rest st htr]
        constructor
        · intro h
          rw [hne, hmu, hfr]
          exact ⟨by simp [expectedNotifs], by simp [h]⟩
        · intro h
          rw [hne, hmu, hfr]
          exact ⟨by simp, by simp [h]⟩
      · have htr' : (processLine cfg st l).restart = false := by simpa using htr
        rw [processLines_cons_continue cfg l rest st htr']
        constructor
        · intro h
          obtain ⟨ihA, ihB⟩ := (ih (processLine cfg st l).state).1 (by rw [hfr, h])
          rw [notifEvents_append, matchedUrls_append, hmu, hne, ihA]
          exact ⟨by simp, ihB⟩
        · intro h
          obtain ⟨ihA, ihB⟩ := (ih (processLine cfg st l).state).2 (by rw [hfr, h])
          rw [notifEvents_append, matchedUrls_append, hmu, hne, ihA]
          exact ⟨by simp, ihB⟩

theorem runSupervisor_cons (cfg : SupConfig) (r : ChildRun) (rest : List ChildRun)
    (st : SupState) :
    runSupervisor cfg (r :: rest) st =
      (if r.hasStdout then
        (if (processLines cfg r.lines st).restarted then
          ⟨.spawn :: ((processLines cfg r.lines st).events ++
              (runSupervisor cfg rest (processLines cfg r.lines st).state).events),
            (runSupervisor cfg rest (processLines cfg r.lines st).state).outcome⟩
        else ⟨.spawn :: (processLines cfg r.lines st).events, .terminated⟩)
      else ⟨[.spawn], .terminated⟩) := rfl

theorem runSupervisor_cons_drained (cfg : SupConfig) (r : ChildRun)
    (rest : List ChildRun) (st : SupState) (hstd : r.hasStdout = true)
    (h : (processLines cfg r.lines st).restarted = false) :
    runSupervisor cfg (r :: rest) st =
      ⟨.spawn :: (processLines cfg r.lines st).events, .terminated⟩ := by
  rw [runSupervisor_cons, if_pos hstd, if_neg (by simp [h])]

theorem runSupervisor_cons_restart (cfg : SupConfig) (r : ChildRun)
    (rest : List ChildRun) (st : SupState) (hstd : r.hasStdout = true)
    (h : (processLines cfg r.lines st).restarted = true) :
    runSupervisor cfg (r :: rest) st =
      ⟨.spawn :: ((processLines cfg r.lines st).events ++
          (runSupervisor cfg rest (processLines cfg r.lines st).state).events),
        (runSupervisor cfg rest (processLines cfg r.lines st).state).outcome⟩ := by
  rw [runSupervisor_cons, if_pos hstd, if_pos h]

theorem runSupervisor_cons_noStdout (cfg : SupConfig) (r : ChildRun)
    (rest : List ChildRun) (st : SupState) (h : r.hasStdout = false) :
    runSupervisor cfg (r :: rest) st = ⟨[.spawn], .terminated⟩ := by
  rw [runSupervisor_cons, if_neg (by simp [h])]

theorem runSupervisor_spawn_mem (cfg : SupConfig) (r : ChildRun)
    (rest : List ChildRun) (st : SupState) :
    SupEvent.spawn ∈ (runSupervisor cfg (r :: rest) st).events := by
  by_cases hstd : r.hasStdout = true
  · by_cases hre : (processLines cfg r.lines st).restarted = true
    · rw [runSupervisor_cons_restart cfg r rest st hstd hre]
      exact List.mem_cons_self _ _
    · rw [runSupervisor_cons_drained cfg r rest st hstd (by simpa using hre)]
      exact List.mem_cons_self _ _
  · rw [runSupervisor_cons_noStdout cfg r rest st (by simpa using hstd)]
    exact List.mem_cons_self _ _

theorem notifEvents_cons_spawn (x : List SupEvent) :
    notifEvents (SupEvent.spawn :: x) = notifEvents x := by
  simp [notifEvents, isNotifEvent]

theorem matchedUrls_cons_spawn (x : List SupEvent) :
    matchedUrls (SupEvent.spawn :: x) = matchedUrls x := by
  simp [matchedUrls]

theorem runSupervisor_notifs (cfg : SupConfig) :
    ∀ (runs : List ChildRun) (st : SupState),
      (st.first_run = true →
        notifEvents (runSupervisor cfg runs st).events =
          expectedNotifs cfg (matchedUrls (runSupervisor cfg runs st).events)) ∧
      (st.first_run = false →
        notifEvents (runSupervisor cfg runs st).events =
          (matchedUrls (runSupervisor cfg runs st).events).map
            (fun _ => SupEvent.updating)) := by
  intro runs
  induction runs with
  | nil =>
    intro st
    exact ⟨fun _ => rfl, fun _ => rfl⟩
  | cons r rest ih =>
    intro st
    by_cases hstd : r.hasStdout = true
    · by_cases hre : (processLines cfg r.lines st).restarted = true
      · rw [runSupervisor_cons_restart cfg r rest st hstd hre]
        constructor
        · intro h
          obtain ⟨hA, hB⟩ := (processLines_notifs cfg r.lines st).1 h
          rw [notifEvents_cons_spawn, matchedUrls_cons_spawn, notifEvents_append,
            matchedUrls_append, hA]
          cases hmu : matchedUrls (processLines cfg r.lines st).events with
          | nil =>
            have hfr : (processLines cfg r.lines st).state.first_run = true := by
              rw [hB, hmu]
              rfl
            have htail := (ih (processLines cfg r.lines st).state).1 hfr
            rw [htail]
            simp [expectedNotifs]
          | cons u us =>
            have hfr : (processLines cfg r.lines st).state.first_run = false := by
              rw [hB, hmu]
              rfl
            have htail := (ih (processLines cfg r.lines st).state).2 hfr
            rw [htail]
            simp [expectedNotifs, List.map_append]
        · intro h
          obtain ⟨hA, hB⟩ := (processLines_notifs cfg r.lines st).2 h
          have htail := (ih (processLines cfg r.lines st).state).2 hB
          rw [notifEvents_cons_spawn, matchedUrls_cons_spawn, notifEvents_append,
            matchedUrls_append, hA, htail, List.map_append]
      · have hre2 : (processLines cfg r.lines st).restarted = false := by
          simpa using hre
        rw [runSupervisor_cons_drained cfg r rest st hstd hre2]
        constructor
        · intro h
          rw [notifEvents_cons_spawn, matchedUrls_cons_spawn]
          exact ((processLines_notifs cfg r.lines st).1 h).1
        · intro h
          rw [notifEvents_cons_spawn, matchedUrls_cons_spawn]
          exact ((processLines_notifs cfg r.lines st).2 h).1
    · rw [runSupervisor_cons_noStdout cfg r rest st (by simpa using hstd)]
      exact ⟨fun _ => rfl, fun _ => rfl⟩

theorem kill_ok_clears_tree (t : ProcTable) (pid : Nat) (t' : ProcTable)
    (h : kill t pid = .ok t') :
    pid ∉ livePids t' ∧ ∀ q ∈ descendants t pid, q ∉ livePids t' := by
  unfold kill at h
  by_cases hm : pid ∈ livePids t
  · rw [if_pos hm] at h
    injection h with h
    subst h
    constructor
    · intro hmem
      simp only [livePids, List.mem_map, List.mem_filter, Bool.and_eq_true,
        Bool.not_eq_true', beq_eq_false_iff_ne, ne_eq] at hmem
      obtain ⟨p, ⟨_, hcond⟩, hfst⟩ := hmem
      exact hcond.1 (by rw [hfst])
    · intro q hq hmem
      simp only [livePids, List.mem_map, List.mem_filter, Bool.and_eq_true,
        Bool.not_eq_true'] at hmem
      obtain ⟨p, ⟨_, hcond⟩, hfst⟩ := hmem
      have hc : (descendants t pid).contains p.1 = false := hcond.2
      rw [hfst] at hc
      simp at hc
      exact hc hq
  · rw [if_neg hm] at h
    cases h

/-! ## Claim theorems -/

/-- C1: within one invocation of `run_process_and_launch_url`, across any
number of internal restarts (N ≥ 0), the "ready"/"updating" notification
subsequence is exactly: one "ready" notification — with the URL captured
from the first ready-matching output line (joined with the frontend
path) — emitted on that first matching line, then one "updating"
notification for every later ready-matching line.  Hence a second
"ready" is never emitted (the first-readiness flag is never re-armed
mid-invocation) and the "ready" notification precedes every "updating"
notification. -/
theorem single_ready_notification (cfg : SupConfig) (initialHash : String)
    (runs : List ChildRun) :
    notifEvents (run_process_and_launch_url cfg initialHash runs).events =
      expectedNotifs cfg
        (matchedUrls (run_process_and_launch_url cfg initialHash runs).events) ∧
    ∀ e ∈ (notifEvents (run_process_and_launch_url cfg initialHash runs).events).tail,
      e = SupEvent.updating := by
  have h1 := (runSupervisor_notifs cfg runs ⟨true, initialHash⟩).1 rfl
  constructor
  · exact h1
  · show ∀ e ∈ (notifEvents (runSupervisor cfg runs ⟨true, initialHash⟩).events).tail, _
    rw [h1]
    cases matchedUrls (runSupervisor cfg runs ⟨true, initialHash⟩).events with
    | nil =>
      intro e he
      simp [expectedNotifs] at he
    | cons u us =>
      intro e he
      simp only [expectedNotifs, List.tail_cons] at he
      obtain ⟨a, _, h2⟩ := List.mem_map.mp he
      exact h2.symm

/-- C2 counterexample: the code recomputes the manifest fingerprint only
in the `else` branch, i.e. after lines that do NOT match the ready
pattern.  Here the first line matches the ready pattern while the
manifest fingerprint at that moment is "B" ≠ last-known "A"; the claim
says the child must be terminated before any further output line is
processed, but the code processes the second line, never kills anything
and exits the loop normally. -/
theorem hash_check_skipped_on_ready_line :
    (run_process_and_launch_url cfgDemo "A"
        [{ hasStdout := true,
           lines := [
             { matchesReady := true, url := "http://localhost:3000",
               hasBinError := false, manifestHash := "B" },
             { matchesReady := false, url := "second line",
               hasBinError := false, manifestHash := "A" }] }]).events =
      [.spawn, .line true "http://localhost:3000",
        .ready "http://localhost:3000", .backendNote, .line false "second line"] ∧
    (run_process_and_launch_url cfgDemo "A"
        [{ hasStdout := true,
           lines := [
             { matchesReady := true, url := "http://localhost:3000",
               hasBinError := false, manifestHash := "B" },
             { matchesReady := false, url := "second line",
               hasBinError := false, manifestHash := "A" }] }]).outcome =
      .terminated ∧
    SupEvent.killTree ∉
      (run_process_and_launch_url cfgDemo "A"
        [{ hasStdout := true,
           lines := [
             { matchesReady := true, url := "http://localhost:3000",
               hasBinError := false, manifestHash := "B" },
             { matchesReady := false, url := "second line",
               hasBinError := false, manifestHash := "A" }] }]).events := by
  refine ⟨?_, ?_, ?_⟩ <;> decide

/-- C2 amended: after processing each line that does not match the ready
pattern, the manifest fingerprint is recomputed; when it differs from
the last-known fingerprint, the last-known fingerprint is updated to the
new value, the current child together with its full recursive descendant
tree is killed, no further line of that child's stream is processed, and
the loop returns to the spawn state (lines that do match the ready
pattern never trigger the check). -/
theorem restart_on_nonmatching_hash_change (cfg : SupConfig) (st : SupState)
    (r : ChildRun) (rest : List ChildRun) (pre : List OutLine) (l0 : OutLine)
    (post : List OutLine)
    (hstd : r.hasStdout = true)
    (hsplit : r.lines = pre ++ l0 :: post)
    (hpre : ∀ l ∈ pre, hashTrigger st.last_hash l = false)
    (hl0 : hashTrigger st.last_hash l0 = true) :
    processLines cfg r.lines st = processLines cfg (pre ++ [l0]) st ∧
    (processLines cfg r.lines st).restarted = true ∧
    (processLines cfg r.lines st).state.last_hash = l0.manifestHash ∧
    SupEvent.killTree ∈ (processLines cfg r.lines st).events ∧
    runSupervisor cfg (r :: rest) st =
      ⟨.spawn :: ((processLines cfg r.lines st).events ++
          (runSupervisor cfg rest (processLines cfg r.lines st).state).events),
        (runSupervisor cfg rest (processLines cfg r.lines st).state).outcome⟩ ∧
    (∀ (t : ProcTable) (pid : Nat) (t' : ProcTable), kill t pid = .ok t' →
      pid ∉ livePids t' ∧ ∀ q ∈ descendants t pid, q ∉ livePids t') := by
  obtain ⟨hs1, hs2, hs3⟩ := processLines_stop cfg pre l0 post st hpre hl0
  have hre : (processLines cfg r.lines st).restarted = true := by
    rw [hsplit]
    exact hs3
  refine ⟨?_, hre, ?_, ?_, ?_, fun t pid t' h => kill_ok_clears_tree t pid t' h⟩
  · rw [hsplit]
    exact hs1
  · rw [hsplit]
    exact hs2
  · exact (processLines_restart_char cfg r.lines st).2.2 hre
  · exact runSupervisor_cons_restart cfg r rest st hstd hre

/-- C2 amended witness. -/
theorem restart_on_nonmatching_hash_change_witness :
    ((⟨true, [⟨false, "installing", false, "A"⟩, ⟨false, "log", false, "B"⟩,
        ⟨true, "http://x", false, "B"⟩]⟩ : ChildRun).hasStdout = true ∧
      (⟨true, [⟨false, "installing", false, "A"⟩, ⟨false, "log", false, "B"⟩,
        ⟨true, "http://x", false, "B"⟩]⟩ : ChildRun).lines =
        [⟨false, "installing", false, "A"⟩] ++
          ⟨false, "log", false, "B"⟩ :: [⟨true, "http://x", false, "B"⟩] ∧
      (∀ l ∈ [(⟨false, "installing", false, "A"⟩ : OutLine)],
        hashTrigger "A" l = false) ∧
      hashTrigger "A" (⟨false, "log", false, "B"⟩ : OutLine) = true) ∧
    ((processLines cfgDemo
        (⟨true, [⟨false, "installing", false, "A"⟩, ⟨false, "log", false, "B"⟩,
          ⟨true, "http://x", false, "B"⟩]⟩ : ChildRun).lines ⟨true, "A"⟩).restarted =
        true ∧
      (processLines cfgDemo
        (⟨true, [⟨false, "installing", false, "A"⟩, ⟨false, "log", false, "B"⟩,
          ⟨true, "http://x", false, "B"⟩]⟩ : ChildRun).lines
          ⟨true, "A"⟩).state.last_hash = "B" ∧
      SupEvent.killTree ∈ (processLines cfgDemo
        (⟨true, [⟨false, "installing", false, "A"⟩, ⟨false, "log", false, "B"⟩,
          ⟨true, "http://x", false, "B"⟩]⟩ : ChildRun).lines ⟨true, "A"⟩).events) :=
  ⟨⟨by decide, by decide, by decide, by decide⟩,
    have h := restart_on_nonmatching_hash_change cfgDemo ⟨true, "A"⟩
      ⟨true, [⟨false, "installing", false, "A"⟩, ⟨false, "log", false, "B"⟩,
        ⟨true, "http://x", false, "B"⟩]⟩ []
      [⟨false, "installing", false, "A"⟩] ⟨false, "log", false, "B"⟩
      [⟨true, "http://x", false, "B"⟩]
      (by decide) (by decide) (by decide) (by decide)
    ⟨h.2.1, h.2.2.1, h.2.2.2.1⟩⟩

/-- C3 counterexample: `kill` on a pid with no live process raises
`psutil.NoSuchProcess` (the `psutil.Process(proc_pid)` constructor
raises); it is not treated as success. -/
theorem kill_on_missing_pid_errors :
    kill { procs := [] } 1234 = .error .noSuchProcess := by
  rfl

/-- C3 amended: a termination request on an already-exited process is an
error, not a no-op — `kill(proc_pid)` raises `psutil.NoSuchProcess` when
no live process has pid `proc_pid`; when the target is alive, the call
succeeds and removes the target and its whole recursive descendant tree
from the process table. -/
theorem kill_already_exited_spec (t : ProcTable) (proc_pid : Nat) :
    (proc_pid ∉ livePids t → kill t proc_pid = .error .noSuchProcess) ∧
    (proc_pid ∈ livePids t → ∃ t', kill t proc_pid = .ok t' ∧
      proc_pid ∉ livePids t' ∧ ∀ q ∈ descendants t proc_pid, q ∉ livePids t') := by
  constructor
  · intro h
    unfold kill
    rw [if_neg h]
  · intro h
    have hok : kill t proc_pid =
        .ok ⟨t.procs.filter (fun p => !(p.1 == proc_pid) &&
          !(descendants t proc_pid).contains p.1)⟩ := by
      unfold kill
      rw [if_pos h]
    exact ⟨_, hok, kill_ok_clears_tree t proc_pid _ hok⟩

/-- C3 amended witness. -/
theorem kill_already_exited_spec_witness :
    (2 ∉ livePids { procs := [(1, 0)] } ∧
      kill { procs := [(1, 0)] } 2 = .error .noSuchProcess) ∧
    (1 ∈ livePids { procs := [(1, 0), (2, 1), (3, 2)] } ∧
      ∃ t', kill { procs := [(1, 0), (2, 1), (3, 2)] } 1 = .ok t' ∧
        1 ∉ livePids t' ∧
        ∀ q ∈ descendants { procs := [(1, 0), (2, 1), (3, 2)] } 1, q ∉ livePids t') :=
  ⟨⟨by decide, (kill_already_exited_spec { procs := [(1, 0)] } 2).1 (by decide)⟩,
    ⟨by decide,
      (kill_already_exited_spec { procs := [(1, 0), (2, 1), (3, 2)] } 1).2 (by decide)⟩⟩

/-- C5: with a child spawned and its stream being drained, the loop
returns exactly when the stream reaches end-of-stream without the hash
check having fired on any line (equivalently, for the whole invocation,
when this or some later spawned child drains cleanly); when the check
fires mid-stream the invocation does not return: the process tree is
killed and the loop spawns the next child. -/
theorem loop_return_characterization (cfg : SupConfig) (st : SupState)
    (r : ChildRun) (rest : List ChildRun) (hstd : r.hasStdout = true) :
    ((runSupervisor cfg (r :: rest) st).outcome = .terminated ↔
      r.lines.any (hashTrigger st.last_hash) = false ∨
        (runSupervisor cfg rest (processLines cfg r.lines st).state).outcome =
          .terminated) ∧
    (r.lines.any (hashTrigger st.last_hash) = false →
      runSupervisor cfg (r :: rest) st =
        ⟨.spawn :: (processLines cfg r.lines st).events, .terminated⟩) ∧
    (r.lines.any (hashTrigger st.last_hash) = true →
      SupEvent.killTree ∈ (runSupervisor cfg (r :: rest) st).events ∧
      (∀ r2 rest2, rest = r2 :: rest2 →
        SupEvent.spawn ∈
          (runSupervisor cfg rest (processLines cfg r.lines st).state).events)) := by
  obtain ⟨hany, _, hkill⟩ := processLines_restart_char cfg r.lines st
  by_cases htr : r.lines.any (hashTrigger st.last_hash) = true
  · have hre : (processLines cfg r.lines st).restarted = true := by rw [hany, htr]
    have hrw := runSupervisor_cons_restart cfg r rest st hstd hre
    refine ⟨?_, ?_, ?_⟩
    · rw [hrw, htr]
      simp
    · intro h
      rw [htr] at h
      cases h
    · intro _
      constructor
      · rw [hrw]
        exact List.mem_cons_of_mem _ (List.mem_append_left _ (hkill hre))
      · intro r2 rest2 hrest
        rw [hrest]
        exact runSupervisor_spawn_mem cfg r2 rest2 _
  · have htr' : r.lines.any (hashTrigger st.last_hash) = false := by simpa using htr
    have hre : (processLines cfg r.lines st).restarted = false := by rw [hany, htr']
    have hrw := runSupervisor_cons_drained cfg r rest st hstd hre
    refine ⟨?_, fun _ => hrw, ?_⟩
    · rw [hrw, htr']
      simp
    · intro h
      rw [htr'] at h
      cases h

/-- C5 witness. -/
theorem loop_return_characterization_witness :
    ((⟨true, [⟨false, "log line", false, "A"⟩]⟩ : ChildRun).hasStdout = true) ∧
    (((runSupervisor cfgDemo
          ((⟨true, [⟨false, "log line", false, "A"⟩]⟩ : ChildRun) :: [])
          ⟨true, "A"⟩).outcome = .terminated ↔
        (⟨true, [⟨false, "log line", false, "A"⟩]⟩ : ChildRun).lines.any
            (hashTrigger (⟨true, "A"⟩ : SupState).last_hash) = false ∨
          (runSupervisor cfgDemo []
            (processLines cfgDemo
              (⟨true, [⟨false, "log line", false, "A"⟩]⟩ : ChildRun).lines
              ⟨true, "A"⟩).state).outcome = .terminated) ∧
      ((⟨true, [⟨false, "log line", false, "A"⟩]⟩ : ChildRun).lines.any
          (hashTrigger (⟨true, "A"⟩ : SupState).last_hash) = false →
        runSupervisor cfgDemo
            ((⟨true, [⟨false, "log line", false, "A"⟩]⟩ : ChildRun) :: [])
            ⟨true, "A"⟩ =
          ⟨.spawn :: (processLines cfgDemo
            (⟨true, [⟨false, "log line", false, "A"⟩]⟩ : ChildRun).lines
            ⟨true, "A"⟩).events, .terminated⟩) ∧
      ((⟨true, [⟨false, "log line", false, "A"⟩]⟩ : ChildRun).lines.any
          (hashTrigger (⟨true, "A"⟩ : SupState).last_hash) = true →
        SupEvent.killTree ∈
          (runSupervisor cfgDemo
            ((⟨true, [⟨false, "log line", false, "A"⟩]⟩ : ChildRun) :: [])
            ⟨true, "A"⟩).events ∧
        (∀ r2 rest2, ([] : List ChildRun) = r2 :: rest2 →
          SupEvent.spawn ∈
            (runSupervisor cfgDemo []
              (processLines cfgDemo
                (⟨true, [⟨false, "log line", false, "A"⟩]⟩ : ChildRun).lines
                ⟨true, "A"⟩).state).events))) :=
  ⟨by decide,
    loop_return_characterization cfgDemo ⟨true, "A"⟩
      ⟨true, [⟨false, "log line", false, "A"⟩]⟩ [] (by decide)⟩

/-- C4: two manifests whose parsed JSON contents are structurally equal
(Python `==`, which ignores object key order; insignificant whitespace
in the source text already vanishes at parse time) have equal
`detect_package_change` results, and the result is the SHA-256 hex
digest of the key-sorted JSON serialization of the parsed contents. -/
theorem detect_package_change_stable (m1 m2 : JsonValue)
    (h1 : wfJson m1 = true) (h2 : wfJson m2 = true) (heq : pyEq m1 m2 = true) :
    detect_package_change m1 = detect_package_change m2 ∧
    detect_package_change m1 = sha256Hex (strBytes (json_dumps_sorted m1)) := by
  refine ⟨?_, rfl⟩
  unfold detect_package_change json_dumps_sorted
  rw [pyEq_norm_aux (sizeOf m1) m1 m2 le_rfl h1 h2 heq]

/-- C4 witness: the same two-entry object with its keys in either
order. -/
theorem detect_package_change_stable_witness :
    wfJson (JsonValue.obj [("b", .num 1), ("a", .str "x")]) = true ∧
    wfJson (JsonValue.obj [("a", .str "x"), ("b", .num 1)]) = true ∧
    pyEq (JsonValue.obj [("b", .num 1), ("a", .str "x")])
      (JsonValue.obj [("a", .str "x"), ("b", .num 1)]) = true ∧
    detect_package_change (JsonValue.obj [("b", .num 1), ("a", .str "x")]) =
      detect_package_change (JsonValue.obj [("a", .str "x"), ("b", .num 1)]) :=
  ⟨by decide, by decide, by simp [pyEq, pyEqPairs, pyFind],
    (detect_package_change_stable _ _ (by decide) (by decide)
      (by simp [pyEq, pyEqPairs, pyFind])).1⟩

theorem parentDir_length_lt_of_walkCond (fs : FileSys) (p : List String)
    (h : walkCond fs p = true) : (parentDir p).length < p.length := by
  have h1 : baseName (parentDir p) ≠ "" := by
    have hb := ((Bool.and_eq_true _ _).mp h).1
    simpa [bne_iff_ne] using hb
  have h2 : parentDir p ≠ [] := fun he => h1 (by rw [he]; rfl)
  have h3 : 0 < (parentDir p).length := List.length_pos.mpr h2
  simp only [parentDir, List.length_dropLast] at h3 ⊢
  omega

theorem walkUp_spec (fs : FileSys) :
    ∀ (n : Nat) (p : List String), p.length ≤ n →
      ∃ k, walkUp fs p = upN p k ∧
        (∀ j < k, walkCond fs (upN p j) = true) ∧
        walkCond fs (upN p k) = false := by
  intro n
  induction n with
  | zero =>
    intro p hp
    have hpnil : p = [] := List.eq_nil_of_length_eq_zero (Nat.le_zero.mp hp)
    subst hpnil
    have hc : walkCond fs [] = false := rfl
    refine ⟨0, ?_, fun j hj => absurd hj (by omega), hc⟩
    unfold walkUp
    rw [dif_neg (by simp [hc])]
    rfl
  | succ n ih =>
    intro p hp
    by_cases hc : walkCond fs p = true
    · have hlt := parentDir_length_lt_of_walkCond fs p hc
      obtain ⟨k, h1, h2, h3⟩ := ih (parentDir p) (by omega)
      refine ⟨k + 1, ?_, ?_, h3⟩
      · unfold walkUp
        rw [dif_pos hc]
        exact h1
      · intro j hj
        cases j with
        | zero => exact hc
        | succ j => exact h2 j (by omega)
    · refine ⟨0, ?_, fun j hj => absurd hj (by omega), by simpa using hc⟩
      unfold walkUp
      rw [dif_neg hc]
      rfl

/-- C6: when an app module file is configured, the resolver starts at
the file's containing directory and repeats `module_path :=
module_path.parent` exactly while the parent directory has a non-empty
name and contains an entry named `__init__.py`; the stopping point (the
outermost directory still inside the package tree) is the single root
whose filtered children are enumerated. -/
theorem reload_root_resolution (fs : FileSys) (cfg : RConfig) (f : List String)
    (hmod : cfg.app_module_file = some f) :
    reloadRootDirs fs cfg = [walkUp fs (parentDir f)] ∧
    defaultCandidates fs cfg =
      (iterdir fs (walkUp fs (parentDir f))).filter
        (fun path => !is_excluded_by_default fs path) ∧
    ∃ k, walkUp fs (parentDir f) = upN (parentDir f) k ∧
      (∀ j < k, walkCond fs (upN (parentDir f) j) = true) ∧
      walkCond fs (upN (parentDir f) k) = false := by
  refine ⟨?_, ?_, walkUp_spec fs (parentDir f).length (parentDir f) le_rfl⟩
  · simp [reloadRootDirs, hmod]
  · simp [defaultCandidates, reloadRootDirs, hmod]

/-- C6 witness: a module file nested two package levels deep. -/
theorem reload_root_resolution_witness :
    cfgWalkDemo.app_module_file = some ["home", "proj", "pkg", "sub", "mod.py"] ∧
    (reloadRootDirs fsWalkDemo cfgWalkDemo =
        [walkUp fsWalkDemo (parentDir ["home", "proj", "pkg", "sub", "mod.py"])] ∧
      defaultCandidates fsWalkDemo cfgWalkDemo =
        (iterdir fsWalkDemo
            (walkUp fsWalkDemo (parentDir ["home", "proj", "pkg", "sub", "mod.py"]))).filter
          (fun path => !is_excluded_by_default fsWalkDemo path) ∧
      ∃ k, walkUp fsWalkDemo (parentDir ["home", "proj", "pkg", "sub", "mod.py"]) =
          upN (parentDir ["home", "proj", "pkg", "sub", "mod.py"]) k ∧
        (∀ j < k, walkCond fsWalkDemo
          (upN (parentDir ["home", "proj", "pkg", "sub", "mod.py"]) j) = true) ∧
        walkCond fsWalkDemo
          (upN (parentDir ["home", "proj", "pkg", "sub", "mod.py"]) k) = false) :=
  ⟨rfl, reload_root_resolution fsWalkDemo cfgWalkDemo
    ["home", "proj", "pkg", "sub", "mod.py"] rfl⟩

theorem notSame_ok_true_iff (fs : FileSys) (p : List String) :
    ∀ (excludes : List (List String)),
      notSameAsAnyExclude fs p excludes = .ok true ↔
        ∀ e ∈ excludes, samefile fs p e = .ok false := by
  intro excludes
  induction excludes with
  | nil => simp [notSameAsAnyExclude]
  | cons e rest ih =>
    constructor
    · intro h x hx
      rcases List.mem_cons.mp hx with h1 | h1
      · subst h1
        cases hse : samefile fs p x with
        | error u => simp [notSameAsAnyExclude, hse] at h
        | ok b =>
          cases b with
          | false => rfl
          | true => simp [notSameAsAnyExclude, hse] at h
      · cases hse : samefile fs p e with
        | error u => simp [notSameAsAnyExclude, hse] at h
        | ok b =>
          cases b with
          | false =>
            simp only [notSameAsAnyExclude, hse] at h
            exact ih.mp h x h1
          | true => simp [notSameAsAnyExclude, hse] at h
    · intro hall
      have he := hall e (List.mem_cons_self _ _)
      simp only [notSameAsAnyExclude, he]
      exact ih.mpr (fun x hx => hall x (List.mem_cons_of_mem _ hx))

theorem filterExcludes_ok_mem (fs : FileSys) :
    ∀ (paths : List (List String)) (excludes l : List (List String)),
      filterExcludes fs paths excludes = .ok l →
      ∀ p, p ∈ l ↔ p ∈ paths ∧ notSameAsAnyExclude fs p excludes = .ok true := by
  intro paths
  induction paths with
  | nil =>
    intro excludes l h p
    simp only [filterExcludes] at h
    injection h with h
    subst h
    simp
  | cons q rest ih =>
    intro excludes l h p
    simp only [filterExcludes] at h
    cases hne : notSameAsAnyExclude fs q excludes with
    | error u =>
      rw [hne] at h
      cases h
    | ok b =>
      rw [hne] at h
      cases b with
      | true =>
        cases hrec : filterExcludes fs rest excludes with
        | error u =>
          rw [hrec] at h
          cases h
        | ok ltail =>
          rw [hrec] at h
          injection h with h
          subst h
          constructor
          · intro hp
            rcases List.mem_cons.mp hp with h1 | h1
            · subst h1
              exact ⟨List.mem_cons_self _ _, hne⟩
            · obtain ⟨ha, hb⟩ := (ih excludes ltail hrec p).mp h1
              exact ⟨List.mem_cons_of_mem _ ha, hb⟩
          · rintro ⟨hp, hok⟩
            rcases List.mem_cons.mp hp with h1 | h1
            · subst h1
              exact List.mem_cons_self _ _
            · exact List.mem_cons_of_mem _ ((ih excludes ltail hrec p).mpr ⟨h1, hok⟩)
      | false =>
        constructor
        · intro hp
          obtain ⟨ha, hb⟩ := (ih excludes l h p).mp hp
          exact ⟨List.mem_cons_of_mem _ ha, hb⟩
        · rintro ⟨hp, hok⟩
          rcases List.mem_cons.mp hp with h1 | h1
          · subst h1
            rw [hne] at hok
            simp at hok
          · exact (ih excludes l h p).mpr ⟨h1, hok⟩

theorem filterExcludes_sublist (fs : FileSys) :
    ∀ (paths : List (List String)) (excludes l : List (List String)),
      filterExcludes fs paths excludes = .ok l → l.Sublist paths := by
  intro paths
  induction paths with
  | nil =>
    intro excludes l h
    simp only [filterExcludes] at h
    injection h with h
    subst h
    exact List.Sublist.refl _
  | cons q rest ih =>
    intro excludes l h
    simp only [filterExcludes] at h
    cases hne : notSameAsAnyExclude fs q excludes with
    | error u =>
      rw [hne] at h
      cases h
    | ok b =>
      rw [hne] at h
      cases b with
      | true =>
        cases hrec : filterExcludes fs rest excludes with
        | error u =>
          rw [hrec] at h
          cases h
        | ok ltail =>
          rw [hrec] at h
          injection h with h
          subst h
          exact (ih excludes ltail hrec).cons₂ q
      | false => exact (ih excludes l h).cons q

theorem samefile_error_left (fs : FileSys) (p q : List String)
    (h : pathExists fs p = false) : samefile fs p q = .error () := by
  have hn : fs.node p = none := by
    cases hc : fs.node p with
    | none => rfl
    | some a => rw [pathExists, hc] at h; cases h
  simp only [samefile, hn]

theorem notSame_error_of_missing (fs : FileSys) (p e : List String)
    (rest : List (List String)) (h : pathExists fs p = false) :
    notSameAsAnyExclude fs p (e :: rest) = .error () := by
  simp only [notSameAsAnyExclude, samefile_error_left fs p e h]

theorem filterExcludes_error_of_missing (fs : FileSys) :
    ∀ (paths : List (List String)) (excludes : List (List String)),
      excludes ≠ [] →
      (∃ p ∈ paths, pathExists fs p = false) →
      filterExcludes fs paths excludes = .error () := by
  intro paths
  induction paths with
  | nil =>
    rintro excludes _ ⟨p, hp, _⟩
    simp at hp
  | cons q rest ih =>
    rintro excludes hne ⟨p, hp, hex⟩
    simp only [filterExcludes]
    by_cases hq : pathExists fs q = false
    · obtain ⟨e, rest2, hcons⟩ := List.exists_cons_of_ne_nil hne
      rw [hcons, notSame_error_of_missing fs q e rest2 hq]
    · have hpq : p ≠ q := fun he => hq (he ▸ hex)
      have hrest : p ∈ rest := by
        rcases List.mem_cons.mp hp with h1 | h1
        · exact absurd h1 hpq
        · exact h1
      have herr := ih excludes hne ⟨p, hrest, hex⟩
      cases hns : notSameAsAnyExclude fs q excludes with
      | error u => rfl
      | ok b =>
        cases b with
        | true => rw [herr]
        | false => exact herr

theorem samefile_ok_of_exists (fs : FileSys) (p q : List String)
    (hp : pathExists fs p = true) (hq : pathExists fs q = true) :
    ∃ b, samefile fs p q = .ok b := by
  simp only [pathExists, Option.isSome_iff_exists] at hp hq
  obtain ⟨a, ha⟩ := hp
  obtain ⟨b, hb⟩ := hq
  exact ⟨a.inode == b.inode, by simp [samefile, ha, hb]⟩

theorem notSame_ok_of_exists (fs : FileSys) (p : List String) :
    ∀ (excludes : List (List String)), pathExists fs p = true →
      (∀ e ∈ excludes, pathExists fs e = true) →
      ∃ b, notSameAsAnyExclude fs p excludes = .ok b := by
  intro excludes
  induction excludes with
  | nil => exact fun _ _ => ⟨true, rfl⟩
  | cons e rest ih =>
    intro hp hall
    obtain ⟨b, hb⟩ := samefile_ok_of_exists fs p e hp (hall e (List.mem_cons_self _ _))
    cases b with
    | true => exact ⟨false, by simp [notSameAsAnyExclude, hb]⟩
    | false =>
      obtain ⟨b2, hb2⟩ := ih hp (fun x hx => hall x (List.mem_cons_of_mem _ hx))
      exact ⟨b2, by simp [notSameAsAnyExclude, hb, hb2]⟩

theorem filterExcludes_ok_of_exists (fs : FileSys) :
    ∀ (paths : List (List String)) (excludes : List (List String)),
      (∀ p ∈ paths, pathExists fs p = true) →
      (∀ e ∈ excludes, pathExists fs e = true) →
      ∃ l, filterExcludes fs paths excludes = .ok l := by
  intro paths
  induction paths with
  | nil => exact fun excludes _ _ => ⟨[], rfl⟩
  | cons q rest ih =>
    intro excludes hall hexc
    obtain ⟨b, hb⟩ := notSame_ok_of_exists fs q excludes
      (hall q (List.mem_cons_self _ _)) hexc
    obtain ⟨l, hl⟩ := ih excludes (fun x hx => hall x (List.mem_cons_of_mem _ hx)) hexc
    cases b with
    | true => exact ⟨q :: l, by simp [filterExcludes, hb, hl]⟩
    | false => exact ⟨l, by simp [filterExcludes, hb, hl]⟩

/-- C7: in `get_reload_paths`, every explicit include path that is not
`samefile`-equal to any exclude path is present in the result — the
default-exclusion filter is applied only to the enumerated children,
never to the includes, which are appended afterwards — and every path
of the result is `samefile`-distinct from every exclude path, so any
path referring to the same underlying filesystem entity as an exclude
(identity through `stat`, not string equality) is absent. -/
theorem include_exclude_precedence (fs : FileSys) (cfg : RConfig)
    (incs excs l : List (List String))
    (h : get_reload_paths fs cfg incs excs = .ok l) :
    (∀ inc ∈ incs, (∀ e ∈ excs, samefile fs inc e = .ok false) → inc ∈ l) ∧
    (∀ p ∈ l, ∀ e ∈ excs, samefile fs p e = .ok false) := by
  simp only [get_reload_paths] at h
  by_cases hemp : excs.isEmpty = true
  · rw [if_pos hemp] at h
    injection h with h
    subst h
    have hnil : excs = [] := List.isEmpty_iff.mp hemp
    subst hnil
    constructor
    · intro inc hinc _
      exact List.mem_append_right _ hinc
    · intro p _ e he
      simp at he
  · rw [if_neg hemp] at h
    constructor
    · intro inc hinc hall
      exact (filterExcludes_ok_mem fs _ excs l h inc).mpr
        ⟨List.mem_append_right _ hinc, (notSame_ok_true_iff fs inc excs).mpr hall⟩
    · intro p hp e he
      have hm := (filterExcludes_ok_mem fs _ excs l h p).mp hp
      exact (notSame_ok_true_iff fs p excs).mp hm.2 e he

/-- C7 witness: the include `app/.hidden` is itself default-excludable
(hidden directory) yet is in the result; the child `app/data` is
`samefile`-equal to the differently-spelled exclude `links/data-link`
(same inode) and is absent. -/
theorem include_exclude_precedence_witness :
    get_reload_paths fsLinkDemo cfgRootDemo [["app", ".hidden"]]
        [["links", "data-link"]] = .ok [["app", "src"], ["app", ".hidden"]] ∧
    is_excluded_by_default fsLinkDemo ["app", ".hidden"] = true ∧
    samefile fsLinkDemo ["app", "data"] ["links", "data-link"] = .ok true ∧
    (∀ inc ∈ [["app", ".hidden"]],
      (∀ e ∈ [["links", "data-link"]], samefile fsLinkDemo inc e = .ok false) →
        inc ∈ [["app", "src"], ["app", ".hidden"]]) ∧
    (∀ p ∈ [["app", "src"], ["app", ".hidden"]], ∀ e ∈ [["links", "data-link"]],
      samefile fsLinkDemo p e = .ok false) :=
  ⟨by decide, by decide, by decide,
    (include_exclude_precedence fsLinkDemo cfgRootDemo [["app", ".hidden"]]
      [["links", "data-link"]] [["app", "src"], ["app", ".hidden"]] (by decide)).1,
    (include_exclude_precedence fsLinkDemo cfgRootDemo [["app", ".hidden"]]
      [["links", "data-link"]] [["app", "src"], ["app", ".hidden"]] (by decide)).2⟩

/-- C8 counterexample: the hidden-prefix and internal-prefix rules are
guarded by `path.is_dir()`, so a hidden regular file such as `.env` is
NOT dropped, contradicting the claim that every hidden entry is
excluded: it survives into the resolver output. -/
theorem hidden_file_not_excluded :
    strStartsWith (baseName ["app", ".env"]) "." = true ∧
    isDirB fsHiddenFileDemo ["app", ".env"] = false ∧
    is_excluded_by_default fsHiddenFileDemo ["app", ".env"] = false ∧
    defaultCandidates fsHiddenFileDemo cfgRootDemo =
      [["app", ".env"], ["app", "src"]] := by
  refine ⟨?_, ?_, ?_, ?_⟩ <;> decide

/-- C8 amended: an entry is default-excluded iff it is a DIRECTORY
whose name begins with "." or "__", or an entry (of any type) named
exactly ".gitignore" or "uploaded_files"; in particular for a root with
children `.git`, `__pycache__`, `src`, `assets` (directories) and
`.gitignore` (a file), exactly `src` and `assets` survive. -/
theorem default_exclusion_spec (fs : FileSys) (path : List String) :
    (is_excluded_by_default fs path = true ↔
      (isDirB fs path = true ∧
        (strStartsWith (baseName path) "." = true ∨
          strStartsWith (baseName path) "__" = true)) ∨
      baseName path = ".gitignore" ∨ baseName path = "uploaded_files") ∧
    defaultCandidates fsRootDemo cfgRootDemo = [["app", "src"], ["app", "assets"]] := by
  refine ⟨?_, by decide⟩
  unfold is_excluded_by_default
  by_cases hd : isDirB fs path = true <;>
    by_cases h1 : strStartsWith (baseName path) "." = true <;>
    by_cases h2 : strStartsWith (baseName path) "__" = true <;>
    simp [hd, h1, h2]

/-- C9 counterexample: `get_reload_paths` does not deduplicate — an
include that is also an enumerated child appears twice in the result. -/
theorem reload_paths_duplicate :
    get_reload_paths fsHiddenFileDemo cfgRootDemo [["app", "src"]] [] =
      .ok [["app", ".env"], ["app", "src"], ["app", "src"]] ∧
    ¬ ([["app", ".env"], ["app", "src"], ["app", "src"]] :
        List (List String)).Nodup := by
  exact ⟨by decide, by decide⟩

/-- C9 amended: the result is an ordered sequence of absolute paths —
children of the resolved root first, in enumeration order, then the
explicit includes, with the exclude filter applied last as an
order-preserving selection — but it is NOT deduplicated: a path may
occur more than once. -/
theorem reload_paths_order (fs : FileSys) (cfg : RConfig)
    (incs excs l : List (List String))
    (h : get_reload_paths fs cfg incs excs = .ok l) :
    l.Sublist (defaultCandidates fs cfg ++ incs) ∧
    (excs = [] → l = defaultCandidates fs cfg ++ incs) := by
  simp only [get_reload_paths] at h
  by_cases hemp : excs.isEmpty = true
  · rw [if_pos hemp] at h
    injection h with h
    subst h
    exact ⟨List.Sublist.refl _, fun _ => rfl⟩
  · rw [if_neg hemp] at h
    refine ⟨filterExcludes_sublist fs _ _ _ h, ?_⟩
    intro hnil
    subst hnil
    simp at hemp

/-- C9 amended witness: a duplicated result is itself a sublist of
children-then-includes, and with no excludes the result is exactly
that concatenation. -/
theorem reload_paths_order_witness :
    get_reload_paths fsHiddenFileDemo cfgRootDemo [["app", "src"]] [] =
      .ok [["app", ".env"], ["app", "src"], ["app", "src"]] ∧
    (([["app", ".env"], ["app", "src"], ["app", "src"]] :
        List (List String)).Sublist
      (defaultCandidates fsHiddenFileDemo cfgRootDemo ++ [["app", "src"]]) ∧
    (([] : List (List String)) = [] →
      ([["app", ".env"], ["app", "src"], ["app", "src"]] : List (List String)) =
        defaultCandidates fsHiddenFileDemo cfgRootDemo ++ [["app", "src"]])) :=
  ⟨by decide,
    reload_paths_order fsHiddenFileDemo cfgRootDemo [["app", "src"]] []
      [["app", ".env"], ["app", "src"], ["app", "src"]] (by decide)⟩

/-- C10 counterexample: a nonexistent exclude path does not by itself
raise — with an empty candidate set nothing is ever compared against
it and the call returns successfully, contradicting the claim that a
missing exclude path always raises `FileNotFoundError`. -/
theorem missing_exclude_no_raise :
    pathExists fsEmptyDemo ["nope"] = false ∧
    get_reload_paths fsEmptyDemo cfgRootDemo [] [["nope"]] = .ok [] := by
  exact ⟨by decide, by decide⟩

/-- C10 amended: when exclude paths are given, the exclusion step
raises `FileNotFoundError` if any candidate path (enumerated child or
include) does not exist, because `Path.samefile` stats both sides; it
does not raise when every compared path exists.  A missing exclude path
raises only when some candidate is actually compared against it. -/
theorem exclusion_existence_requirements (fs : FileSys) (cfg : RConfig)
    (incs excs : List (List String)) :
    (excs ≠ [] →
      (∃ p ∈ defaultCandidates fs cfg ++ incs, pathExists fs p = false) →
      get_reload_paths fs cfg incs excs = .error ()) ∧
    ((∀ p ∈ defaultCandidates fs cfg ++ incs, pathExists fs p = true) →
      (∀ e ∈ excs, pathExists fs e = true) →
      ∃ l, get_reload_paths fs cfg incs excs = .ok l) := by
  constructor
  · intro hne hex
    simp only [get_reload_paths]
    rw [if_neg (by simp [List.isEmpty_iff, hne])]
    exact filterExcludes_error_of_missing fs _ excs hne hex
  · intro hall hexc
    simp only [get_reload_paths]
    by_cases hemp : excs.isEmpty = true
    · rw [if_pos hemp]
      exact ⟨_, rfl⟩
    · rw [if_neg hemp]
      exact filterExcludes_ok_of_exists fs _ excs hall hexc

/-- C10 amended witness: a dangling child entry (broken symlink) makes
the exclusion step raise. -/
theorem exclusion_existence_requirements_witness :
    ([["app", "ok"]] : List (List String)) ≠ [] ∧
    (∃ p ∈ defaultCandidates fsDanglingDemo cfgRootDemo ++ ([] : List (List String)),
      pathExists fsDanglingDemo p = false) ∧
    get_reload_paths fsDanglingDemo cfgRootDemo [] [["app", "ok"]] = .error () :=
  ⟨by decide, by decide,
    (exclusion_existence_requirements fsDanglingDemo cfgRootDemo [] [["app", "ok"]]).1
      (by decide) (by decide)⟩
